import Mathlib

/-!
Verification of the spatial simulation and routing engine of `gym-flock`
(`gym_flock/envs/spatial/mapping_rad.py`), shallowly embedded in Lean.

Modelling conventions:
* 2-D positions are pairs of rationals.  Euclidean distances are represented
  throughout by their squares (`dist2`): every comparison the code performs on
  distances (`r > rad`, `argmin`, `argpartition`, nonzero tests) is invariant
  under the strictly monotone map `x ↦ x²` on nonnegative reals, so the edge
  sets, argmins and selections computed here coincide with those of the code.
* numpy arrays of indices are `List ℕ` (or `List ℤ` where the `-1` sentinel
  occurs); matrices are functions `ℕ → ℕ → _` consulted only below the bound.
* `np.Inf` entries of the time matrix are `⊤` in `ℕ∞`; with the uniform edge
  cost `edge_time = 1.0` (the only value the code ever passes, line 547),
  a finite float entry `k · edge_time` is the natural number `k`.
-/

namespace MappingRad

variable {K : Type} [LinearOrderedCommRing K]

/-- A 2-D position, with coordinates in a linearly ordered commutative ring
`K` standing for the float coordinates of the code (concrete instances are
evaluated at `K = ℤ`, general statements hold for any `K`, in particular
`ℚ`). -/
abbrev Pt (K : Type) : Type := K × K

/-- Squared Euclidean distance between two points. -/
def dist2 (p q : Pt K) : K := (p.1 - q.1) ^ 2 + (p.2 - q.2) ^ 2

/-- Entry `(i, j)` of the mutated distance matrix `r` of `_get_graph_edges`
(lines 329-345): the pairwise distance, zeroed when it exceeds the radius,
and (when `pos2 is None` and self loops are disabled) zeroed on the diagonal.
`sameSet` models the `pos2 is None` case (the second array is the first).
Distances and the radius are squared. -/
def rEntry (rad2 : K) (pos1 pos2 : List (Pt K)) (sameSet selfLoops : Bool) (i j : ℕ) : K :=
  let d := dist2 (pos1.getD i (0, 0)) (pos2.getD j (0, 0))
  let d := if rad2 < d then 0 else d
  if sameSet = true ∧ selfLoops = false ∧ i = j then 0 else d

/-- `_get_graph_edges` (lines 329-345): the row-major list of index pairs at
which the mutated matrix `r` is nonzero (`np.nonzero`). -/
def getGraphEdges (rad2 : K) (pos1 pos2 : List (Pt K)) (sameSet selfLoops : Bool) :
    List (ℕ × ℕ) :=
  (List.range pos1.length).flatMap (fun i =>
    (List.range pos2.length).filterMap (fun j =>
      if rEntry rad2 pos1 pos2 sameSet selfLoops i j ≠ 0 then some (i, j) else none))

/-- The (squared) weights `r[edges]` returned alongside the edge list. -/
def getGraphWeights (rad2 : K) (pos1 pos2 : List (Pt K)) (sameSet selfLoops : Bool) :
    List K :=
  (getGraphEdges rad2 pos1 pos2 sameSet selfLoops).map
    (fun e => rEntry rad2 pos1 pos2 sameSet selfLoops e.1 e.2)

/-- The static motion graph (`_initialize_graph`, lines 430-431): the radius
graph over target positions only, built with `self_loops=True`. -/
def motionEdges (targets : List (Pt K)) (rad2 : K) : List (ℕ × ℕ) :=
  getGraphEdges rad2 targets targets true true

theorem dist2_self (p : Pt K) : dist2 p p = 0 := by
  simp [dist2]

theorem dist2_nonneg (p q : Pt K) : 0 ≤ dist2 p q := by
  have h1 : (0:K) ≤ (p.1 - q.1) ^ 2 := sq_nonneg _
  have h2 : (0:K) ≤ (p.2 - q.2) ^ 2 := sq_nonneg _
  simpa [dist2] using add_nonneg h1 h2

/-- Self pairs are never edges of the motion graph: the diagonal of the
distance matrix is exactly `0`, which `np.nonzero` discards even though the
builder is called with `self_loops=True`. -/
theorem motionEdges_no_self_loop (targets : List (Pt K)) (rad2 : K) (i : ℕ) :
    (i, i) ∉ motionEdges targets rad2 := by
  intro hmem
  simp only [motionEdges, getGraphEdges, List.mem_flatMap, List.mem_filterMap,
    List.mem_range] at hmem
  obtain ⟨a, _, b, _, hb⟩ := hmem
  split_ifs at hb with h
  · rw [Option.some_inj, Prod.mk.injEq] at hb
    obtain ⟨hai, hbi⟩ := hb
    subst hai hbi
    apply h
    simp [rEntry, dist2_self]

/-- Membership description of `getGraphEdges`. -/
theorem mem_getGraphEdges (rad2 : K) (pos1 pos2 : List (Pt K)) (sameSet selfLoops : Bool)
    (i j : ℕ) :
    (i, j) ∈ getGraphEdges rad2 pos1 pos2 sameSet selfLoops ↔
      i < pos1.length ∧ j < pos2.length ∧
        rEntry rad2 pos1 pos2 sameSet selfLoops i j ≠ 0 := by
  simp only [getGraphEdges, List.mem_flatMap, List.mem_filterMap, List.mem_range]
  constructor
  · rintro ⟨a, ha, b, hb, hab⟩
    split_ifs at hab with h
    · rw [Option.some_inj, Prod.mk.injEq] at hab
      obtain ⟨rfl, rfl⟩ := hab
      exact ⟨ha, hb, h⟩
  · rintro ⟨hi, hj, h⟩
    exact ⟨i, hi, j, hj, by simp [h]⟩

/-- Every motion edge has both endpoints below the number of targets. -/
theorem motionEdges_lt (targets : List (Pt K)) (rad2 : K) :
    ∀ e ∈ motionEdges targets rad2, e.1 < targets.length ∧ e.2 < targets.length := by
  rintro ⟨i, j⟩ he
  have := (mem_getGraphEdges rad2 targets targets true true i j).mp he
  exact ⟨this.1, this.2.1⟩

/-- First index attaining the minimum of `row` over a nonempty index list
(`np.argmin` scans in order and keeps the first minimum). -/
def argminOver {A : Type} [LinearOrder A] (row : ℕ → A) : List ℕ → ℕ
  | [] => 0
  | a :: rest => rest.foldl (fun best j => if row j < row best then j else best) a

/-- First index attaining the row minimum over `0, …, m-1` (`np.argmin`). -/
def argminIdx {A : Type} [LinearOrder A] (row : ℕ → A) (m : ℕ) : ℕ :=
  argminOver row (List.range m)

/-- The set of `t` smallest indices of `row` within `rem`, smallest first,
ties broken towards the smaller index: the deterministic reading of
`np.argpartition(r, k)[:, 0:k+1]` prescribed by the spec (§4.1, §9). -/
def pickMins (row : ℕ → K) : ℕ → List ℕ → List ℕ
  | 0, _ => []
  | _ + 1, [] => []
  | t + 1, a :: rest =>
      let b := argminOver row (a :: rest)
      b :: pickMins row t ((a :: rest).erase b)

/-- Row `i` of `_get_k_edges` with `allow_nearest=False` (lines 386-392):
mark the `k+1` closest receivers, unmark the single closest one
(`np.argmin`), and read the surviving column indices off in ascending order
(`np.nonzero` of the mask row). -/
def kEdgesRow (row : ℕ → K) (m k : ℕ) : List ℕ :=
  let picks := pickMins row (k + 1) (List.range m)
  let b := argminOver row (List.range m)
  (List.range m).filter (fun j => decide (j ∈ picks ∧ j ≠ b))

/-- Distance row used by `_get_k_edges` for sender `i` (squared). -/
def kRow (pos1 pos2 : List (Pt K)) (i j : ℕ) : K :=
  dist2 (pos1.getD i (0, 0)) (pos2.getD j (0, 0))

/-- `_get_k_edges(k, pos1, pos2, allow_nearest=False)` (lines 365-393) as the
row-major edge list `np.nonzero(mask)`. -/
def getKEdges (k : ℕ) (pos1 pos2 : List (Pt K)) : List (ℕ × ℕ) :=
  (List.range pos1.length).flatMap (fun i =>
    (kEdgesRow (kRow pos1 pos2 i) pos2.length k).map (fun j => (i, j)))

theorem argminOver_mem {A : Type} [LinearOrder A] (row : ℕ → A) (l : List ℕ)
    (hl : l ≠ []) :
    argminOver row l ∈ l := by
  match l with
  | [] => exact absurd rfl hl
  | a :: rest =>
    simp only [argminOver]
    have key : ∀ (xs : List ℕ) (acc : ℕ), acc ∈ a :: rest → xs ⊆ a :: rest →
        xs.foldl (fun best j => if row j < row best then j else best) acc ∈ a :: rest := by
      intro xs
      induction xs with
      | nil => intro acc hacc _; simpa using hacc
      | cons x xs ih =>
        intro acc hacc hsub
        simp only [List.foldl_cons]
        apply ih
        · by_cases h : row x < row acc
          · simpa [h] using hsub (List.mem_cons_self x xs)
          · simpa [h] using hacc
        · exact fun y hy => hsub (List.mem_cons_of_mem x hy)
    exact key rest a (List.mem_cons_self a rest) (fun y hy => List.mem_cons_of_mem a hy)

theorem argminOver_le {A : Type} [LinearOrder A] (row : ℕ → A) :
    ∀ (l : List ℕ) (a x : ℕ),
      x ∈ a :: l →
      row (l.foldl (fun best j => if row j < row best then j else best) a) ≤ row x := by
  intro l
  induction l with
  | nil =>
    intro a x hx
    have hxa : x = a := by simpa using hx
    subst hxa
    exact le_refl _
  | cons b l ih =>
    intro a x hx
    simp only [List.foldl_cons]
    have hstep : row (if row b < row a then b else a) ≤ row a ∧
        row (if row b < row a then b else a) ≤ row b := by
      split_ifs with h
      · exact ⟨le_of_lt h, le_refl _⟩
      · exact ⟨le_refl _, le_of_not_lt h⟩
    have hc : row (l.foldl (fun best j => if row j < row best then j else best)
        (if row b < row a then b else a)) ≤ row (if row b < row a then b else a) :=
      ih _ _ (List.mem_cons_self _ _)
    rcases List.mem_cons.mp hx with rfl | hx2
    · exact le_trans hc hstep.1
    · rcases List.mem_cons.mp hx2 with rfl | hx3
      · exact le_trans hc hstep.2
      · exact ih _ x (List.mem_cons_of_mem _ hx3)

theorem argminOver_min {A : Type} [LinearOrder A] (row : ℕ → A) (l : List ℕ)
    (hl : l ≠ []) (x : ℕ) (hx : x ∈ l) : row (argminOver row l) ≤ row x := by
  match l with
  | [] => exact absurd rfl hl
  | a :: rest => exact argminOver_le row rest a x hx

theorem argminOver_head {A : Type} [LinearOrder A] (row : ℕ → A) (a : ℕ)
    (rest : List ℕ) (h : ∀ x ∈ rest, ¬ row x < row a) :
    argminOver row (a :: rest) = a := by
  simp only [argminOver]
  induction rest with
  | nil => rfl
  | cons b l ih =>
    simp only [List.foldl_cons, if_neg (h b (List.mem_cons_self b l))]
    exact ih (fun x hx => h x (List.mem_cons_of_mem b hx))

theorem pickMins_subset (row : ℕ → K) :
    ∀ (t : ℕ) (rem : List ℕ), pickMins row t rem ⊆ rem := by
  intro t
  induction t with
  | zero => intro rem; simp [pickMins]
  | succ t ih =>
    intro rem
    match rem with
    | [] => simp [pickMins]
    | a :: rest =>
      simp only [pickMins]
      intro x hx
      rcases List.mem_cons.mp hx with h | h
      · subst h; exact argminOver_mem row (a :: rest) (by simp)
      · exact List.erase_subset _ _ (ih _ h)

theorem pickMins_length (row : ℕ → K) :
    ∀ (t : ℕ) (rem : List ℕ), (pickMins row t rem).length = min t rem.length := by
  intro t
  induction t with
  | zero => intro rem; simp [pickMins]
  | succ t ih =>
    intro rem
    match rem with
    | [] => simp [pickMins]
    | a :: rest =>
      have hb : argminOver row (a :: rest) ∈ a :: rest := argminOver_mem row _ (by simp)
      simp only [pickMins, List.length_cons, ih, List.length_erase_of_mem hb]
      simp only [List.length_cons, Nat.add_sub_cancel]
      omega

theorem pickMins_nodup (row : ℕ → K) :
    ∀ (t : ℕ) (rem : List ℕ), rem.Nodup → (pickMins row t rem).Nodup := by
  intro t
  induction t with
  | zero => intro rem _; simp [pickMins]
  | succ t ih =>
    intro rem hrem
    match rem with
    | [] => simp [pickMins]
    | a :: rest =>
      simp only [pickMins, List.nodup_cons]
      constructor
      · intro hmem
        have hsub := pickMins_subset row t ((a :: rest).erase (argminOver row (a :: rest)))
        have : argminOver row (a :: rest) ∈ (a :: rest).erase (argminOver row (a :: rest)) :=
          hsub hmem
        exact (List.Nodup.not_mem_erase hrem) this
      · exact ih _ (List.Nodup.erase _ hrem)

/-- Filtering a duplicate-free list by membership in a duplicate-free
sublist recovers exactly the length of that sublist. -/
theorem length_filter_mem (l L : List ℕ) (hl : l.Nodup) (hL : L.Nodup)
    (hsub : l ⊆ L) :
    (L.filter (fun j => decide (j ∈ l))).length = l.length := by
  have hperm : List.Perm (L.filter (fun j => decide (j ∈ l))) l := by
    apply List.perm_of_nodup_nodup_toFinset_eq (List.Nodup.filter _ hL) hl
    ext x
    simp only [List.mem_toFinset, List.mem_filter, decide_eq_true_eq]
    exact ⟨fun h => h.2, fun h => ⟨hsub h, h⟩⟩
  exact hperm.length_eq

/-- With at least `k + 1` candidate receivers, each row of the
`allow_nearest=False` edge mask has exactly `k` live columns: the overall
closest receiver is the first element selected by the partition, so removing
it always removes exactly one of the `k + 1` marked columns. -/
theorem kEdgesRow_length (row : ℕ → K) (m k : ℕ) (hm : k + 1 ≤ m) :
    (kEdgesRow row m k).length = k := by
  have hm0 : 0 < m := Nat.lt_of_lt_of_le (Nat.succ_pos k) hm
  obtain ⟨m', rfl⟩ : ∃ m', m = m' + 1 := ⟨m - 1, by omega⟩
  have hrange : List.range (m' + 1) = 0 :: (List.range m').map Nat.succ := by
    simpa using List.range_succ_eq_map m'
  set R : List ℕ := List.range (m' + 1) with hR
  have hRnodup : R.Nodup := List.nodup_range _
  have hRne : R ≠ [] := by simp [hR]
  set b : ℕ := argminOver row R with hb
  have hbR : b ∈ R := argminOver_mem row R hRne
  have hpicks : pickMins row (k + 1) R = b :: pickMins row k (R.erase b) := by
    conv_lhs => rw [hrange]
    simp only [pickMins]
    rw [← hrange]
  set rest : List ℕ := pickMins row k (R.erase b) with hrest
  have hrest_nodup : rest.Nodup :=
    pickMins_nodup row k (R.erase b) (List.Nodup.erase _ hRnodup)
  have hrest_sub_erase : rest ⊆ R.erase b := pickMins_subset row k (R.erase b)
  have hrest_sub : rest ⊆ R := fun x hx => List.erase_subset _ _ (hrest_sub_erase hx)
  have hb_not_rest : b ∉ rest := by
    intro hmem
    exact (List.Nodup.not_mem_erase hRnodup) (hrest_sub_erase hmem)
  have hpred : ∀ j, (decide (j ∈ pickMins row (k + 1) R ∧ j ≠ b) = true) ↔ j ∈ rest := by
    intro j
    rw [decide_eq_true_eq, hpicks]
    constructor
    · rintro ⟨hj, hne⟩
      rcases List.mem_cons.mp hj with h | h
      · exact absurd h hne
      · exact h
    · intro hj
      refine ⟨List.mem_cons_of_mem b hj, ?_⟩
      intro hEq
      exact hb_not_rest (hEq ▸ hj)
  have hfilter : R.filter (fun j => decide (j ∈ pickMins row (k + 1) R ∧ j ≠ b)) =
      R.filter (fun j => decide (j ∈ rest)) := by
    apply List.filter_congr
    intro j _
    have : (j ∈ pickMins row (k + 1) R ∧ j ≠ b) ↔ j ∈ rest := by
      rw [← decide_eq_true_eq (p := j ∈ pickMins row (k + 1) R ∧ j ≠ b)]
      exact hpred j
    exact decide_eq_decide.mpr this
  have hlen_rest : rest.length = k := by
    rw [hrest, pickMins_length]
    have : (R.erase b).length = m' := by
      rw [List.length_erase_of_mem hbR]
      simp [hR]
    rw [this]
    omega
  calc (kEdgesRow row (m' + 1) k).length
      = (R.filter (fun j => decide (j ∈ rest))).length := by
        rw [kEdgesRow, ← hfilter]
    _ = rest.length := length_filter_mem rest R hrest_nodup hRnodup hrest_sub
    _ = k := hlen_rest

/-- Restriction of the row-major `getKEdges` list to one sender. -/
theorem getKEdges_filter_sender (k : ℕ) (pos1 pos2 : List (Pt K)) (i : ℕ)
    (hi : i < pos1.length) :
    (getKEdges k pos1 pos2).filter (fun e => decide (e.1 = i)) =
      (kEdgesRow (kRow pos1 pos2 i) pos2.length k).map (fun j => (i, j)) := by
  rw [getKEdges]
  have key : ∀ (is : List ℕ), is.Nodup → i ∈ is →
      (is.flatMap (fun a =>
          (kEdgesRow (kRow pos1 pos2 a) pos2.length k).map (fun j => (a, j)))).filter
          (fun e => decide (e.1 = i)) =
        (kEdgesRow (kRow pos1 pos2 i) pos2.length k).map (fun j => (i, j)) := by
    intro is
    induction is with
    | nil => intro _ h; simp at h
    | cons a rest ih =>
      intro hnodup hmem
      rw [List.flatMap_cons, List.filter_append]
      rcases List.mem_cons.mp hmem with rfl | hmem2
      · have h1 : ((kEdgesRow (kRow pos1 pos2 i) pos2.length k).map
            (fun j => (i, j))).filter (fun e => decide (e.1 = i)) =
            (kEdgesRow (kRow pos1 pos2 i) pos2.length k).map (fun j => (i, j)) := by
          apply List.filter_eq_self.mpr
          intro e he
          obtain ⟨j, _, rfl⟩ := List.mem_map.mp he
          simp
        have h2 : (rest.flatMap (fun b =>
            (kEdgesRow (kRow pos1 pos2 b) pos2.length k).map
              (fun j => (b, j)))).filter (fun e => decide (e.1 = i)) = [] := by
          apply List.filter_eq_nil_iff.mpr
          intro e he
          obtain ⟨b, hb, he2⟩ := List.mem_flatMap.mp he
          obtain ⟨j, _, rfl⟩ := List.mem_map.mp he2
          have hba : b ≠ i := by
            rintro rfl
            exact (List.nodup_cons.mp hnodup).1 hb
          simp [hba]
        rw [h1, h2, List.append_nil]
      · have hai : a ≠ i := by
          rintro rfl
          exact (List.nodup_cons.mp hnodup).1 hmem2
        have h1 : ((kEdgesRow (kRow pos1 pos2 a) pos2.length k).map
            (fun j => (a, j))).filter (fun e => decide (e.1 = i)) = [] := by
          apply List.filter_eq_nil_iff.mpr
          intro e he
          obtain ⟨j, _, rfl⟩ := List.mem_map.mp he
          simp [hai]
        rw [h1, List.nil_append]
        exact ih (List.nodup_cons.mp hnodup).2 hmem2
  exact key (List.range pos1.length) (List.nodup_range _) (List.mem_range.mpr hi)

/-- Deterministic instance: under the ascending-distance-then-ascending-
index tie-break of `pickMins`, every sender gets exactly `k` outgoing
edges whenever at least `k+1` candidates exist (the general statement,
quantified over every `argpartition`-conforming selection, is
`getKEdgesSel_sender_count` below). -/
theorem getKEdges_sender_count (k : ℕ) (pos1 pos2 : List (Pt K)) (i : ℕ)
    (hcand : k + 1 ≤ pos2.length) (hi : i < pos1.length) :
    ((getKEdges k pos1 pos2).filter (fun e => decide (e.1 = i))).length = k := by
  rw [getKEdges_filter_sender k pos1 pos2 i hi, List.length_map,
    kEdgesRow_length _ _ _ hcand]

/-- The deterministic instance evaluated on receivers at tied distances
1, 1, 1, 4 with `k = 2`: the sender has exactly two edges. -/
theorem getKEdges_sender_count_witness :
    2 + 1 ≤ ([((1:ℤ),0), (-1,0), (0,1), (0,2)] : List (Pt ℤ)).length ∧ 0 < 1 ∧
      ((getKEdges 2 [((0:ℤ),0)] [((1:ℤ),0), (-1,0), (0,1), (0,2)]).filter
        (fun e => decide (e.1 = 0))).length = 2 :=
  ⟨by decide, by decide,
    getKEdges_sender_count 2 [((0:ℤ),0)] [((1:ℤ),0), (-1,0), (0,1), (0,2)] 0
      (by decide) (by simp)⟩

/-- The postcondition `np.argpartition(r, k)[:, 0:k+1]` guarantees for a
row: `sel` is a set of `k1` distinct receiver indices whose distances are
all at most every unselected distance (the `k1` smallest values, with tie
selection left unspecified by numpy). -/
def IsKSelect (row : ℕ → K) (m k1 : ℕ) (sel : List ℕ) : Prop :=
  sel.Nodup ∧ sel.length = k1 ∧ (∀ i ∈ sel, i < m) ∧
    ∀ i ∈ sel, ∀ j, j < m → j ∉ sel → row i ≤ row j

/-- Row `i` of `_get_k_edges` with `allow_nearest=False` (lines 386-392),
parametric in the `argpartition` selection `sel`: mark the selected
columns, unmark `np.argmin` (the first index attaining the row minimum),
and read the surviving columns off in ascending order. -/
def kEdgesRowSel (row : ℕ → K) (m : ℕ) (sel : List ℕ) : List ℕ :=
  (List.range m).filter (fun j => decide (j ∈ sel ∧ j ≠ argminIdx row m))

/-- `_get_k_edges(k, pos1, pos2, allow_nearest=False)` parametric in the
per-sender `argpartition` selections `sels`. -/
def getKEdgesSel (pos1 pos2 : List (Pt K)) (sels : ℕ → List ℕ) : List (ℕ × ℕ) :=
  (List.range pos1.length).flatMap (fun i =>
    (kEdgesRowSel (kRow pos1 pos2 i) pos2.length (sels i)).map (fun j => (i, j)))

/-- The deterministic builder is the parametric one instantiated with the
ascending-distance-then-ascending-index selection. -/
theorem getKEdges_eq_getKEdgesSel (k : ℕ) (pos1 pos2 : List (Pt K)) :
    getKEdges k pos1 pos2 = getKEdgesSel pos1 pos2
      (fun i => pickMins (kRow pos1 pos2 i) (k + 1) (List.range pos2.length)) := rfl

/-- Every index picked by `pickMins` has a value at most that of every
unpicked index of the pool: the pick really is a partition selection. -/
theorem pickMins_le_unpicked (row : ℕ → K) :
    ∀ (t : ℕ) (rem : List ℕ), ∀ i ∈ pickMins row t rem, ∀ j ∈ rem,
      j ∉ pickMins row t rem → row i ≤ row j := by
  intro t
  induction t with
  | zero => intro rem i hi; simp [pickMins] at hi
  | succ t ih =>
    intro rem i hi j hj hjn
    match rem with
    | [] => simp [pickMins] at hi
    | a :: rest =>
      simp only [pickMins] at hi hjn
      rcases List.mem_cons.mp hi with rfl | hi2
      · exact argminOver_min row (a :: rest) (by simp) j hj
      · have hjb : j ≠ argminOver row (a :: rest) := by
          intro h
          exact hjn (h ▸ List.mem_cons_self _ _)
        have hjn2 : j ∉ pickMins row t ((a :: rest).erase (argminOver row (a :: rest))) := by
          intro h
          exact hjn (List.mem_cons_of_mem _ h)
        have hje : j ∈ (a :: rest).erase (argminOver row (a :: rest)) :=
          (List.mem_erase_of_ne hjb).mpr hj
        exact ih ((a :: rest).erase (argminOver row (a :: rest))) i hi2 j hje hjn2

/-- The deterministic selection satisfies the `argpartition` contract. -/
theorem pickMins_isKSelect (row : ℕ → K) (m k1 : ℕ) (h : k1 ≤ m) :
    IsKSelect row m k1 (pickMins row k1 (List.range m)) := by
  refine ⟨pickMins_nodup row k1 (List.range m) (List.nodup_range m), ?_, ?_, ?_⟩
  · rw [pickMins_length, List.length_range]
    omega
  · intro i hi
    exact List.mem_range.mp (pickMins_subset row k1 (List.range m) hi)
  · intro i hi j hj hjn
    exact pickMins_le_unpicked row k1 (List.range m) i hi j (List.mem_range.mpr hj) hjn

/-- Sender restriction of a row-major flatMap of per-sender pair blocks. -/
theorem flatMap_pairs_filter (f : ℕ → List ℕ) (n i : ℕ) (hi : i < n) :
    ((List.range n).flatMap (fun a => (f a).map (fun j => (a, j)))).filter
      (fun e => decide (e.1 = i)) = (f i).map (fun j => (i, j)) := by
  have key : ∀ (is : List ℕ), is.Nodup → i ∈ is →
      (is.flatMap (fun a => (f a).map (fun j => (a, j)))).filter
          (fun e => decide (e.1 = i)) = (f i).map (fun j => (i, j)) := by
    intro is
    induction is with
    | nil => intro _ h; simp at h
    | cons a rest ih =>
      intro hnodup hmem
      rw [List.flatMap_cons, List.filter_append]
      rcases List.mem_cons.mp hmem with rfl | hmem2
      · have h1 : ((f i).map (fun j => (i, j))).filter (fun e => decide (e.1 = i)) =
            (f i).map (fun j => (i, j)) := by
          apply List.filter_eq_self.mpr
          intro e he
          obtain ⟨j, _, rfl⟩ := List.mem_map.mp he
          simp
        have h2 : (rest.flatMap (fun b => (f b).map (fun j => (b, j)))).filter
            (fun e => decide (e.1 = i)) = [] := by
          apply List.filter_eq_nil_iff.mpr
          intro e he
          obtain ⟨b, hb, he2⟩ := List.mem_flatMap.mp he
          obtain ⟨j, _, rfl⟩ := List.mem_map.mp he2
          have hba : b ≠ i := by
            rintro rfl
            exact (List.nodup_cons.mp hnodup).1 hb
          simp [hba]
        rw [h1, h2, List.append_nil]
      · have hai : a ≠ i := by
          rintro rfl
          exact (List.nodup_cons.mp hnodup).1 hmem2
        have h1 : ((f a).map (fun j => (a, j))).filter (fun e => decide (e.1 = i)) = [] := by
          apply List.filter_eq_nil_iff.mpr
          intro e he
          obtain ⟨j, _, rfl⟩ := List.mem_map.mp he
          simp [hai]
        rw [h1, List.nil_append]
        exact ih (List.nodup_cons.mp hnodup).2 hmem2
  exact key (List.range n) (List.nodup_range _) (List.mem_range.mpr hi)

/-- With at most `k+1` receivers tying at the row minimum, every
contract-conforming `k+1`-selection contains the `np.argmin` index, so
unmarking it removes exactly one marked column and `k` edges remain. -/
theorem kEdgesRowSel_count (row : ℕ → K) (m k : ℕ) (sel : List ℕ)
    (hsel : IsKSelect row m (k + 1) sel)
    (hties : ((List.range m).filter
      (fun j => decide (row j = row (argminIdx row m)))).length ≤ k + 1) :
    (kEdgesRowSel row m sel).length = k := by
  obtain ⟨hnodup, hlen, hlt, hpart⟩ := hsel
  have hm : 0 < m := by
    match sel, hlen with
    | x :: xs, _ => exact Nat.lt_of_le_of_lt (Nat.zero_le x) (hlt x (List.mem_cons_self x xs))
  have hrne : List.range m ≠ [] := by
    rw [Ne, List.range_eq_nil]
    omega
  have hbmem : argminIdx row m ∈ List.range m := argminOver_mem row (List.range m) hrne
  have hbmin : ∀ x ∈ List.range m, row (argminIdx row m) ≤ row x := fun x hx =>
    argminOver_min row (List.range m) hrne x hx
  have hbsel : argminIdx row m ∈ sel := by
    by_contra hb
    have hall : ∀ i ∈ argminIdx row m :: sel,
        i ∈ List.range m ∧ row i = row (argminIdx row m) := by
      intro i hi
      rcases List.mem_cons.mp hi with rfl | hi2
      · exact ⟨hbmem, rfl⟩
      · have him : i ∈ List.range m := List.mem_range.mpr (hlt i hi2)
        exact ⟨him, le_antisymm
          (hpart i hi2 (argminIdx row m) (List.mem_range.mp hbmem) hb) (hbmin i him)⟩
    have hnodup2 : (argminIdx row m :: sel).Nodup := List.nodup_cons.mpr ⟨hb, hnodup⟩
    have hcard : (argminIdx row m :: sel).length ≤
        ((List.range m).filter
          (fun j => decide (row j = row (argminIdx row m)))).length := by
      calc (argminIdx row m :: sel).length
          = (argminIdx row m :: sel).toFinset.card :=
            (List.toFinset_card_of_nodup hnodup2).symm
        _ ≤ ((List.range m).filter
              (fun j => decide (row j = row (argminIdx row m)))).toFinset.card := by
            apply Finset.card_le_card
            intro x hx
            rw [List.mem_toFinset] at hx ⊢
            rw [List.mem_filter]
            exact ⟨(hall x hx).1, by simp [(hall x hx).2]⟩
        _ ≤ ((List.range m).filter
              (fun j => decide (row j = row (argminIdx row m)))).length :=
            List.toFinset_card_le _
    rw [List.length_cons, hlen] at hcard
    omega
  have hfilter : (List.range m).filter
      (fun j => decide (j ∈ sel ∧ j ≠ argminIdx row m)) =
      (List.range m).filter (fun j => decide (j ∈ sel.erase (argminIdx row m))) := by
    apply List.filter_congr
    intro j _
    apply decide_eq_decide.mpr
    constructor
    · rintro ⟨hj, hne⟩
      exact (List.Nodup.mem_erase_iff hnodup).mpr ⟨hne, hj⟩
    · intro hj
      have h2 := (List.Nodup.mem_erase_iff hnodup).mp hj
      exact ⟨h2.2, h2.1⟩
  have herasesub : sel.erase (argminIdx row m) ⊆ List.range m := fun x hx =>
    List.mem_range.mpr (hlt x (List.erase_subset _ _ hx))
  rw [kEdgesRowSel, hfilter,
    length_filter_mem (sel.erase (argminIdx row m)) (List.range m)
      (List.Nodup.erase _ hnodup) (List.nodup_range m) herasesub,
    List.length_erase_of_mem hbsel, hlen]
  omega

/-- C4 counterexample: one sender with four receivers all at distance 1
(`k = 1`, so at least `k+1` candidates).  The selection `[1, 2]` satisfies
the `argpartition` contract (all distances tie), yet it excludes the
`np.argmin` index 0, so unmarking the closest receiver is a no-op and the
sender ends up with `k+1 = 2` outgoing edges instead of `k = 1`: with
`k+2` or more receivers tied at the minimal distance, the code does not
guarantee exactly `k` edges. -/
theorem getKEdges_sender_count_cex :
    1 + 1 ≤ ([((1:ℤ),0), (-1,0), (0,1), (0,-1)] : List (Pt ℤ)).length ∧
    IsKSelect (kRow [((0:ℤ),0)] [((1:ℤ),0), (-1,0), (0,1), (0,-1)] 0) 4 (1 + 1) [1, 2] ∧
    ((getKEdgesSel [((0:ℤ),0)] [((1:ℤ),0), (-1,0), (0,1), (0,-1)]
        (fun _ => [1, 2])).filter (fun e => decide (e.1 = 0))).length = 2 := by
  refine ⟨by decide, ⟨by decide, by decide, by decide, by decide⟩, by decide⟩

/-- C4 (amended): with `allowNearest=false` and at least `k+1` candidate
receivers, for every receiver selection satisfying the `np.argpartition`
contract (the `k+1` marked distances are all at most every unmarked
distance; numpy leaves the tie selection unspecified), every sender ends
up with exactly `k` outgoing edges — the `k+1` closest receivers minus the
single overall closest one — PROVIDED at most `k+1` receivers tie at the
sender's minimal distance (in particular whenever the minimum is unique);
with `k+2` or more receivers tied at the minimum a conforming selection
may exclude the `np.argmin` index, leaving the sender `k+1` edges (see the
counterexample). -/
theorem getKEdgesSel_sender_count (k : ℕ) (pos1 pos2 : List (Pt K))
    (sels : ℕ → List ℕ) (i : ℕ) (hi : i < pos1.length)
    (hsel : IsKSelect (kRow pos1 pos2 i) pos2.length (k + 1) (sels i))
    (hties : ((List.range pos2.length).filter
      (fun j => decide (kRow pos1 pos2 i j =
        kRow pos1 pos2 i (argminIdx (kRow pos1 pos2 i) pos2.length)))).length ≤ k + 1) :
    ((getKEdgesSel pos1 pos2 sels).filter (fun e => decide (e.1 = i))).length = k := by
  rw [getKEdgesSel, flatMap_pairs_filter
      (fun a => kEdgesRowSel (kRow pos1 pos2 a) pos2.length (sels a)) pos1.length i hi,
    List.length_map]
  exact kEdgesRowSel_count (kRow pos1 pos2 i) pos2.length k (sels i) hsel hties

/-- C4 witness: one sender at the origin, receivers at tied distances
1, 1, 1, 4 with `k = 2`: exactly three receivers tie at the minimum
(`≤ k+1`), the selection `[0, 1, 2]` is contract-conforming, and the
sender has exactly two edges. -/
theorem getKEdgesSel_sender_count_witness :
    (0 < 1 ∧
      IsKSelect (kRow [((0:ℤ),0)] [((1:ℤ),0), (-1,0), (0,1), (0,2)] 0) 4 (2 + 1)
        [0, 1, 2] ∧
      ((List.range 4).filter
        (fun j => decide (kRow [((0:ℤ),0)] [((1:ℤ),0), (-1,0), (0,1), (0,2)] 0 j =
          kRow [((0:ℤ),0)] [((1:ℤ),0), (-1,0), (0,1), (0,2)] 0
            (argminIdx (kRow [((0:ℤ),0)] [((1:ℤ),0), (-1,0), (0,1), (0,2)] 0)
              4)))).length ≤ 2 + 1) ∧
    ((getKEdgesSel [((0:ℤ),0)] [((1:ℤ),0), (-1,0), (0,1), (0,2)]
        (fun _ => [0, 1, 2])).filter (fun e => decide (e.1 = 0))).length = 2 :=
  ⟨⟨by decide, ⟨by decide, by decide, by decide, by decide⟩, by decide⟩,
    getKEdgesSel_sender_count 2 [((0:ℤ),0)] [((1:ℤ),0), (-1,0), (0,1), (0,2)]
      (fun _ => [0, 1, 2]) 0 (by decide)
      ⟨by decide, by decide, by decide, by decide⟩ (by decide)⟩

/-- Joint state of `construct_time_matrix` (lines 456-481): the time matrix
(`np.Inf` is `⊤`; a finite entry `k * edge_time` is `k`, the method being
invoked only with the default `edge_time=1.0`, line 547) and the
predecessor matrix. -/
structure CTMState where
  tm : ℕ → ℕ → ℕ∞
  prev : ℕ → ℕ → ℕ

theorem CTMState.ext2 (a b : CTMState) (htm : a.tm = b.tm) (hprev : a.prev = b.prev) :
    a = b := by
  cases a; cases b; cases htm; cases hprev; rfl

/-- Lines 464-467: time matrix all `Inf` with zero diagonal, predecessor
matrix all zeros with `range(n)` on the diagonal. -/
def ctmInit : CTMState where
  tm := fun i j => if i = j then 0 else ⊤
  prev := fun i j => if i = j then i else 0

/-- Relaxation of one edge `(sender, receiver)` over all source rows `i < T`
(lines 473-479): column `receiver` of the time matrix becomes
`min(time[:, sender] + 1, time[:, receiver])`, and the predecessor entry
becomes `sender` exactly where the strict improvement happened. -/
def relax (T : ℕ) (st : CTMState) (e : ℕ × ℕ) : CTMState where
  tm := fun i j =>
    if i < T ∧ j = e.2 then min (st.tm i e.1 + 1) (st.tm i j) else st.tm i j
  prev := fun i j =>
    if i < T ∧ j = e.2 ∧ st.tm i e.1 + 1 < st.tm i j then e.1 else st.prev i j

/-- Did relaxing edge `e` change column `e.2` (line 478)? -/
def changedAt (T : ℕ) (st : CTMState) (e : ℕ × ℕ) : Bool :=
  (List.range T).any (fun i => decide (min (st.tm i e.1 + 1) (st.tm i e.2) ≠ st.tm i e.2))

/-- One full relaxation pass over the edge list, accumulating the
`changed_last_iter` flag (lines 471-479). -/
def ctmPass (T : ℕ) (edges : List (ℕ × ℕ)) (st : CTMState) : CTMState × Bool :=
  edges.foldl (fun p e => (relax T p.1 e, p.2 || changedAt T p.1 e)) (st, false)

/-- `np.sum(time_matrix) == np.Inf` (line 470): entries are nonnegative with
no `NaN`, so the float sum is `Inf` exactly when some entry is `Inf`. -/
def anyTop (T : ℕ) (st : CTMState) : Bool :=
  (List.range T).any (fun i => (List.range T).any (fun j => decide (st.tm i j = ⊤)))

/-- The `while changed_last_iter and np.sum(time_matrix) == np.Inf` loop
(lines 469-479), fuelled; `ctm_stops` below shows the guard always becomes
false after finitely many passes, so with enough fuel this is exactly the
while loop. -/
def ctmLoop (T : ℕ) (edges : List (ℕ × ℕ)) : ℕ → CTMState → Bool → CTMState × Bool
  | 0, st, ch => (st, ch)
  | fuel + 1, st, ch =>
      if ch && anyTop T st then
        let p := ctmPass T edges st
        ctmLoop T edges fuel p.1 p.2
      else (st, ch)

/-- The while guard is false: the last pass changed nothing, or the time
matrix is fully finite. -/
def stoppedB (T : ℕ) (p : CTMState × Bool) : Bool := !(p.2 && anyTop T p.1)

/-- The finite value of a time-matrix entry (`⊤` counts as zero). -/
def finPart : ℕ∞ → ℕ := WithTop.untop' 0

/-- Index square `[0,T) × [0,T)`. -/
def idxSq (T : ℕ) : Finset (ℕ × ℕ) := Finset.range T ×ˢ Finset.range T

/-- Number of infinite entries of the time matrix. -/
def numTop (T : ℕ) (st : CTMState) : ℕ :=
  ∑ p ∈ idxSq T, if st.tm p.1 p.2 = ⊤ then 1 else 0

/-- Sum of the finite entries of the time matrix. -/
def finSum (T : ℕ) (st : CTMState) : ℕ :=
  ∑ p ∈ idxSq T, finPart (st.tm p.1 p.2)

theorem relax_tm_le (T : ℕ) (st : CTMState) (e : ℕ × ℕ) (i j : ℕ) :
    (relax T st e).tm i j ≤ st.tm i j := by
  simp only [relax]
  split_ifs with h
  · rcases h with ⟨_, rfl⟩
    exact min_le_right _ _
  · exact le_refl _

theorem ctmPassFold_tm_le (T : ℕ) (es : List (ℕ × ℕ)) :
    ∀ (p : CTMState × Bool) (i j : ℕ),
      ((es.foldl (fun p e => (relax T p.1 e, p.2 || changedAt T p.1 e)) p).1).tm i j ≤
        p.1.tm i j := by
  induction es with
  | nil => intro p i j; exact le_refl _
  | cons e es ih =>
    intro p i j
    simp only [List.foldl_cons]
    exact le_trans (ih _ i j) (relax_tm_le T p.1 e i j)

theorem ctmPass_tm_le (T : ℕ) (edges : List (ℕ × ℕ)) (st : CTMState) (i j : ℕ) :
    ((ctmPass T edges st).1).tm i j ≤ st.tm i j :=
  ctmPassFold_tm_le T edges (st, false) i j

theorem changedAt_false_relax (T : ℕ) (st : CTMState) (e : ℕ × ℕ)
    (h : changedAt T st e = false) : relax T st e = st := by
  have hle2 : ∀ i, i < T → st.tm i e.2 ≤ st.tm i e.1 + 1 := by
    simpa [changedAt] using h
  have hAll : ∀ i, i < T → min (st.tm i e.1 + 1) (st.tm i e.2) = st.tm i e.2 := by
    intro i hi
    exact min_eq_right (hle2 i hi)
  apply CTMState.ext2
  · funext i j
    simp only [relax]
    split_ifs with hc
    · rcases hc with ⟨hi, rfl⟩
      exact hAll i hi
    · rfl
  · funext i j
    simp only [relax]
    split_ifs with hc
    · rcases hc with ⟨hi, rfl, hlt⟩
      exfalso
      have hle : st.tm i e.2 ≤ st.tm i e.1 + 1 := by
        rw [← hAll i hi]
        exact min_le_left _ _
      exact absurd hlt (not_lt_of_le hle)
    · rfl

theorem ctmPassFold_flag_false (T : ℕ) (es : List (ℕ × ℕ)) :
    ∀ (p : CTMState × Bool),
      ((es.foldl (fun p e => (relax T p.1 e, p.2 || changedAt T p.1 e)) p).2) = false →
      (es.foldl (fun p e => (relax T p.1 e, p.2 || changedAt T p.1 e)) p) = p ∧
        ∀ e ∈ es, changedAt T p.1 e = false := by
  induction es with
  | nil => intro p _; exact ⟨rfl, by simp⟩
  | cons e es ih =>
    intro p hflag
    simp only [List.foldl_cons] at hflag ⊢
    obtain ⟨heq, hall⟩ := ih _ hflag
    have hpair : (p.2 || changedAt T p.1 e) = false :=
      ((congrArg Prod.snd heq).symm).trans hflag
    have hp2 : p.2 = false := (Bool.or_eq_false_iff.mp hpair).1
    have hce : changedAt T p.1 e = false := (Bool.or_eq_false_iff.mp hpair).2
    have hrelax : relax T p.1 e = p.1 := changedAt_false_relax T p.1 e hce
    constructor
    · rw [heq, hrelax, hp2, hce]
      exact Prod.ext rfl hp2.symm
    · intro f hf
      rcases List.mem_cons.mp hf with rfl | hf2
      · exact hce
      · have := hall f hf2
        rwa [hrelax] at this

theorem finPart_coe_le {a : ℕ} {x : ℕ∞} (h : x ≤ (a : ℕ∞)) : finPart x ≤ a := by
  cases x with
  | top => exact absurd h (by simp)
  | coe b =>
    have : b ≤ a := by exact_mod_cast h
    simpa [finPart, WithTop.untop'] using this

theorem finPart_coe_lt {a : ℕ} {x : ℕ∞} (h : x < (a : ℕ∞)) : finPart x < a := by
  cases x with
  | top => exact absurd h (by simp)
  | coe b =>
    have : b < a := by exact_mod_cast h
    simpa [finPart, WithTop.untop'] using this

theorem mem_idxSq {T i j : ℕ} (hi : i < T) (hj : j < T) : (i, j) ∈ idxSq T := by
  simp [idxSq, Finset.mem_product, hi, hj]

theorem changedAt_true_strict (T : ℕ) (st : CTMState) (e : ℕ × ℕ)
    (h : changedAt T st e = true) :
    ∃ i, i < T ∧ (relax T st e).tm i e.2 < st.tm i e.2 := by
  obtain ⟨i, hmem, hdec⟩ := List.any_eq_true.mp h
  have hi : i < T := List.mem_range.mp hmem
  refine ⟨i, hi, ?_⟩
  have hne : min (st.tm i e.1 + 1) (st.tm i e.2) ≠ st.tm i e.2 := of_decide_eq_true hdec
  have hlt : min (st.tm i e.1 + 1) (st.tm i e.2) < st.tm i e.2 :=
    lt_of_le_of_ne (min_le_right _ _) hne
  simpa [relax, hi] using hlt

theorem ctmPassFold_flag_true (T : ℕ) (es : List (ℕ × ℕ)) (hE : ∀ e ∈ es, e.2 < T) :
    ∀ (p : CTMState × Bool),
      ((es.foldl (fun p e => (relax T p.1 e, p.2 || changedAt T p.1 e)) p).2) = true →
      p.2 = true ∨ ∃ i j, i < T ∧ j < T ∧
        ((es.foldl (fun p e => (relax T p.1 e, p.2 || changedAt T p.1 e)) p).1).tm i j <
          p.1.tm i j := by
  induction es with
  | nil => intro p h; exact Or.inl h
  | cons e es ih =>
    intro p hflag
    simp only [List.foldl_cons] at hflag ⊢
    have hEes : ∀ f ∈ es, f.2 < T := fun f hf => hE f (List.mem_cons_of_mem e hf)
    rcases ih hEes _ hflag with hfl | ⟨i, j, hi, hj, hlt⟩
    · simp only [Bool.or_eq_true] at hfl
      rcases hfl with hp2 | hch
      · exact Or.inl hp2
      · right
        obtain ⟨i, hi, hstrict⟩ := changedAt_true_strict T p.1 e hch
        refine ⟨i, e.2, hi, hE e (List.mem_cons_self e es), ?_⟩
        calc ((es.foldl (fun p e => (relax T p.1 e, p.2 || changedAt T p.1 e))
                (relax T p.1 e, p.2 || changedAt T p.1 e)).1).tm i e.2
            ≤ (relax T p.1 e).tm i e.2 :=
              ctmPassFold_tm_le T es (relax T p.1 e, p.2 || changedAt T p.1 e) i e.2
          _ < p.1.tm i e.2 := hstrict
    · right
      refine ⟨i, j, hi, hj, lt_of_lt_of_le hlt ?_⟩
      exact relax_tm_le T p.1 e i j

theorem ctmPass_measure_decrease (T : ℕ) (edges : List (ℕ × ℕ)) (st : CTMState)
    (hE : ∀ e ∈ edges, e.2 < T) (h : (ctmPass T edges st).2 = true) :
    numTop T (ctmPass T edges st).1 < numTop T st ∨
      (numTop T (ctmPass T edges st).1 = numTop T st ∧
        finSum T (ctmPass T edges st).1 < finSum T st) := by
  set st2 := (ctmPass T edges st).1 with hst2
  have hle : ∀ i j, st2.tm i j ≤ st.tm i j := fun i j => ctmPass_tm_le T edges st i j
  have hstrict : ∃ i j, i < T ∧ j < T ∧ st2.tm i j < st.tm i j := by
    rcases ctmPassFold_flag_true T edges hE (st, false) h with h0 | hs
    · exact absurd h0 (by simp)
    · exact hs
  have htopmono : ∀ i j, st2.tm i j = ⊤ → st.tm i j = ⊤ := by
    intro i j ht
    exact top_le_iff.mp (ht ▸ hle i j)
  by_cases hnew : ∃ q ∈ idxSq T, st.tm q.1 q.2 = ⊤ ∧ st2.tm q.1 q.2 ≠ ⊤
  · left
    apply Finset.sum_lt_sum
    · intro q _
      split_ifs with h1 h2
      · exact le_refl _
      · exact absurd (htopmono _ _ h1) h2
      · exact Nat.zero_le _
      · exact le_refl _
    · obtain ⟨q, hq, htop, hnt⟩ := hnew
      exact ⟨q, hq, by simp [htop, hnt]⟩
  · right
    push_neg at hnew
    have htopeq : ∀ q ∈ idxSq T, (st2.tm q.1 q.2 = ⊤ ↔ st.tm q.1 q.2 = ⊤) := by
      intro q hq
      exact ⟨htopmono q.1 q.2, hnew q hq⟩
    constructor
    · apply Finset.sum_congr rfl
      intro q hq
      simp only [htopeq q hq]
    · apply Finset.sum_lt_sum
      · intro q hq
        cases hcase : st.tm q.1 q.2 with
        | top =>
          have : st2.tm q.1 q.2 = ⊤ := hnew q hq hcase
          simp [this, hcase]
        | coe a =>
          have : st2.tm q.1 q.2 ≤ (a : ℕ∞) := hcase ▸ hle q.1 q.2
          have h2 : finPart (st2.tm q.1 q.2) ≤ a := finPart_coe_le this
          simpa [hcase, finPart, WithTop.untop'] using h2
      · obtain ⟨i, j, hi, hj, hlt⟩ := hstrict
        refine ⟨(i, j), mem_idxSq hi hj, ?_⟩
        cases hcase : st.tm i j with
        | top =>
          exfalso
          have : st2.tm i j = ⊤ := hnew (i, j) (mem_idxSq hi hj) hcase
          rw [this, hcase] at hlt
          exact lt_irrefl _ hlt
        | coe a =>
          have : st2.tm i j < (a : ℕ∞) := hcase ▸ hlt
          have h2 : finPart (st2.tm i j) < a := finPart_coe_lt this
          simpa [hcase, finPart, WithTop.untop'] using h2

theorem ctmLoop_flag_false (T : ℕ) (edges : List (ℕ × ℕ)) (N : ℕ) (st : CTMState) :
    ctmLoop T edges N st false = (st, false) := by
  cases N with
  | zero => rfl
  | succ n => simp [ctmLoop]

theorem ctm_stops_aux (T : ℕ) (edges : List (ℕ × ℕ)) (hE : ∀ e ∈ edges, e.2 < T) :
    ∀ (a b : ℕ) (st : CTMState), numTop T st = a → finSum T st = b →
      ∃ N, stoppedB T (ctmLoop T edges N st true) = true := by
  intro a
  induction a using Nat.strong_induction_on with
  | _ a iha =>
    intro b
    induction b using Nat.strong_induction_on with
    | _ b ihb =>
      intro st ha hb
      by_cases hTop : anyTop T st = true
      · cases hflag : (ctmPass T edges st).2 with
        | false =>
          refine ⟨1, ?_⟩
          simp only [ctmLoop, hTop, Bool.and_true, if_true, Bool.true_and]
          simp [stoppedB, hflag]
        | true =>
          rcases ctmPass_measure_decrease T edges st hE hflag with hlt | ⟨heq, hlt⟩
          · obtain ⟨N, hN⟩ :=
              iha (numTop T (ctmPass T edges st).1) (ha ▸ hlt)
                (finSum T (ctmPass T edges st).1) (ctmPass T edges st).1 rfl rfl
            refine ⟨N + 1, ?_⟩
            simpa [ctmLoop, hTop, hflag] using hN
          · obtain ⟨N, hN⟩ :=
              ihb (finSum T (ctmPass T edges st).1) (hb ▸ hlt)
                (ctmPass T edges st).1 (heq.trans ha) rfl
            refine ⟨N + 1, ?_⟩
            simpa [ctmLoop, hTop, hflag] using hN
      · refine ⟨0, ?_⟩
        rw [Bool.not_eq_true] at hTop
        simp [ctmLoop, stoppedB, hTop]

theorem ctm_stops (T : ℕ) (edges : List (ℕ × ℕ)) (hE : ∀ e ∈ edges, e.2 < T)
    (st : CTMState) : ∃ N, stoppedB T (ctmLoop T edges N st true) = true :=
  ctm_stops_aux T edges hE (numTop T st) (finSum T st) st rfl rfl

theorem ctmLoop_stopped_mono (T : ℕ) (edges : List (ℕ × ℕ)) :
    ∀ (N : ℕ) (st : CTMState) (ch : Bool) (M : ℕ), N ≤ M →
      stoppedB T (ctmLoop T edges N st ch) = true →
      ctmLoop T edges M st ch = ctmLoop T edges N st ch := by
  intro N
  induction N with
  | zero =>
    intro st ch M _ hstop
    have hguard : (ch && anyTop T st) = false := by
      by_contra hne
      rw [Bool.not_eq_false] at hne
      simp [ctmLoop, stoppedB, hne] at hstop
    cases M with
    | zero => rfl
    | succ m => simp [ctmLoop, hguard]
  | succ n ih =>
    intro st ch M hM hstop
    cases M with
    | zero => exact absurd hM (Nat.not_succ_le_zero n)
    | succ m =>
      by_cases hguard : (ch && anyTop T st) = true
      · simp only [ctmLoop, hguard, if_true] at hstop ⊢
        exact ih _ _ m (Nat.le_of_succ_le_succ hM) hstop
      · rw [Bool.not_eq_true] at hguard
        simp [ctmLoop, hguard]

/-- Fuel with which the fuelled loop provably reaches the while-loop guard
being false, so that `construct_time_matrix` is exactly the while loop. -/
def ctmFuel (targets : List (Pt K)) (rad2 : K) : ℕ :=
  Nat.find (ctm_stops targets.length (motionEdges targets rad2)
    (fun e he => (motionEdges_lt targets rad2 e he).2) ctmInit)

/-- `construct_time_matrix` (lines 456-481), applied to the static motion
graph of the given target positions; also returns the final
`changed_last_iter` flag. -/
def construct_time_matrix (targets : List (Pt K)) (rad2 : K) :
    CTMState × Bool :=
  ctmLoop targets.length (motionEdges targets rad2) (ctmFuel targets rad2) ctmInit true

/-- Is there a walk of length at most `p` from `i` to `j` along `edges`? -/
def reachN (edges : List (ℕ × ℕ)) : ℕ → ℕ → ℕ → Bool
  | 0, i, j => i == j
  | p + 1, i, j =>
      reachN edges p i j || edges.any (fun e => e.2 == j && reachN edges p i e.1)

/-- The shortest-path length (hop count) from `i` to `j` along `edges`;
`⊤` when `j` is unreachable from `i`.  This is the specification notion the
time matrix is compared against. -/
noncomputable def hopDist (edges : List (ℕ × ℕ)) (i j : ℕ) : ℕ∞ :=
  ⨅ p ∈ {p : ℕ | reachN edges p i j = true}, (p : ℕ∞)

theorem hopDist_le {edges : List (ℕ × ℕ)} {p : ℕ} {i j : ℕ}
    (h : reachN edges p i j = true) : hopDist edges i j ≤ (p : ℕ∞) := by
  exact iInf₂_le p h

theorem hopDist_eq_top {edges : List (ℕ × ℕ)} {i j : ℕ}
    (h : ∀ p : ℕ, reachN edges p i j = false) : hopDist edges i j = ⊤ := by
  rw [hopDist, iInf_eq_top]
  intro p
  rw [iInf_eq_top]
  intro hp
  exact absurd hp (by simp [h p])

theorem hopDist_ne_top {edges : List (ℕ × ℕ)} {p : ℕ} {i j : ℕ}
    (h : reachN edges p i j = true) : hopDist edges i j ≠ ⊤ :=
  ne_top_of_le_ne_top (WithTop.coe_ne_top) (hopDist_le h)

theorem exists_reach_of_ne_top {edges : List (ℕ × ℕ)} {i j : ℕ}
    (h : hopDist edges i j ≠ ⊤) : ∃ p : ℕ, reachN edges p i j = true := by
  by_contra hno
  push_neg at hno
  exact h (hopDist_eq_top (fun p => Bool.not_eq_true _ ▸ (hno p)))

theorem add_one_eq_coe {x : ℕ∞} {k : ℕ} (h : x + 1 = (k : ℕ∞)) :
    ∃ a : ℕ, x = (a : ℕ∞) ∧ k = a + 1 := by
  cases x with
  | top => simp [top_add] at h
  | coe a =>
    refine ⟨a, rfl, ?_⟩
    have h2 : ((a + 1 : ℕ) : ℕ∞) = (k : ℕ∞) := by
      push_cast
      exact h
    exact_mod_cast h2.symm

/-- The central loop invariant of `construct_time_matrix`: diagonal time
entries stay `0` with self predecessors, every finite time entry is the
length of an actual walk, and entries still `⊤` keep the `0` the predecessor
matrix was initialised with (off the diagonal). -/
def CtmInv (T : ℕ) (edges : List (ℕ × ℕ)) (st : CTMState) : Prop :=
  (∀ i, i < T → st.tm i i = 0 ∧ st.prev i i = i) ∧
  (∀ i j (k : ℕ), i < T → st.tm i j = (k : ℕ∞) → reachN edges k i j = true) ∧
  (∀ i j, i < T → i ≠ j → st.tm i j = ⊤ → st.prev i j = 0)

theorem ctmInit_inv (T : ℕ) (edges : List (ℕ × ℕ)) : CtmInv T edges ctmInit := by
  refine ⟨?_, ?_, ?_⟩
  · intro i _
    constructor <;> simp [ctmInit]
  · intro i j k _ htm
    by_cases hij : i = j
    · subst hij
      have h0 : ctmInit.tm i i = 0 := by simp [ctmInit]
      rw [h0] at htm
      have hk : k = 0 := by exact_mod_cast htm.symm
      subst hk
      simp [reachN]
    · simp [ctmInit, hij] at htm
  · intro i j _ hij _
    simp [ctmInit, hij]

theorem relax_inv (T : ℕ) (edges : List (ℕ × ℕ)) (st : CTMState) (e : ℕ × ℕ)
    (he : e ∈ edges) (hinv : CtmInv T edges st) : CtmInv T edges (relax T st e) := by
  obtain ⟨hdiag, hwalk, hprev⟩ := hinv
  refine ⟨?_, ?_, ?_⟩
  · intro i hi
    constructor
    · simp only [relax]
      split_ifs with hc
      · rw [(hdiag i hi).1]
        exact min_eq_right (zero_le _)
      · exact (hdiag i hi).1
    · simp only [relax]
      split_ifs with hc
      · exfalso
        rcases hc with ⟨_, _, hlt⟩
        rw [(hdiag i hi).1] at hlt
        exact absurd hlt (not_lt_of_le (zero_le _))
      · exact (hdiag i hi).2
  · intro i j k hi htm
    simp only [relax] at htm
    split_ifs at htm with hc
    · obtain ⟨_, rfl⟩ := hc
      rcases min_eq_iff.mp htm with ⟨heq, _⟩ | ⟨heq, _⟩
      · obtain ⟨a, hx, hk⟩ := add_one_eq_coe heq
        subst hk
        have hreach : reachN edges a i e.1 = true := hwalk i e.1 a hi hx
        simp only [reachN, Bool.or_eq_true]
        right
        rw [List.any_eq_true]
        exact ⟨e, he, by simp [hreach]⟩
      · exact hwalk i e.2 k hi heq
    · exact hwalk i j k hi htm
  · intro i j hi hij htop
    simp only [relax] at htop ⊢
    split_ifs at htop with hc
    · obtain ⟨_, rfl⟩ := hc
      have hboth : st.tm i e.1 + 1 = ⊤ ∧ st.tm i e.2 = ⊤ := by
        constructor
        · exact top_le_iff.mp (htop ▸ min_le_left _ _)
        · exact top_le_iff.mp (htop ▸ min_le_right _ _)
      have hnolt : ¬(i < T ∧ e.2 = e.2 ∧ st.tm i e.1 + 1 < st.tm i e.2) := by
        rintro ⟨_, _, hlt⟩
        rw [hboth.1, hboth.2] at hlt
        exact lt_irrefl _ hlt
      rw [if_neg hnolt]
      exact hprev i e.2 hi hij hboth.2
    · have hnolt : ¬(i < T ∧ j = e.2 ∧ st.tm i e.1 + 1 < st.tm i j) := by
        rintro ⟨h1, h2, h3⟩
        exact hc ⟨h1, h2⟩
      rw [if_neg hnolt]
      exact hprev i j hi hij htop

theorem ctmPassFold_inv (T : ℕ) (edges : List (ℕ × ℕ)) (es : List (ℕ × ℕ))
    (hsub : ∀ e ∈ es, e ∈ edges) :
    ∀ (p : CTMState × Bool), CtmInv T edges p.1 →
      CtmInv T edges ((es.foldl (fun p e => (relax T p.1 e, p.2 || changedAt T p.1 e)) p).1) := by
  induction es with
  | nil => intro p h; exact h
  | cons e es ih =>
    intro p h
    simp only [List.foldl_cons]
    exact ih (fun f hf => hsub f (List.mem_cons_of_mem e hf))
      (relax T p.1 e, p.2 || changedAt T p.1 e)
      (relax_inv T edges p.1 e (hsub e (List.mem_cons_self e es)) h)

theorem ctmLoop_inv (T : ℕ) (edges : List (ℕ × ℕ)) :
    ∀ (N : ℕ) (st : CTMState) (ch : Bool), CtmInv T edges st →
      CtmInv T edges (ctmLoop T edges N st ch).1 := by
  intro N
  induction N with
  | zero => intro st ch h; exact h
  | succ n ih =>
    intro st ch h
    by_cases hguard : (ch && anyTop T st) = true
    · simp only [ctmLoop, hguard, if_true]
      exact ih _ _ (ctmPassFold_inv T edges edges (fun _ hf => hf) (st, false) h)
    · rw [Bool.not_eq_true] at hguard
      simp only [ctmLoop, hguard, Bool.false_eq_true, if_false]
      exact h

theorem ctmLoop_exit_cases (T : ℕ) (edges : List (ℕ × ℕ)) :
    ∀ (N : ℕ) (st : CTMState) (ch : Bool), (ctmLoop T edges N st ch).2 = false →
      ch = false ∨ ∃ st0, ctmPass T edges st0 = ((ctmLoop T edges N st ch).1, false) := by
  intro N
  induction N with
  | zero => intro st ch h; exact Or.inl h
  | succ n ih =>
    intro st ch h
    by_cases hguard : (ch && anyTop T st) = true
    · simp only [ctmLoop, hguard, if_true] at h ⊢
      rcases ih (ctmPass T edges st).1 (ctmPass T edges st).2 h with h2 | h2
      · right
        refine ⟨st, ?_⟩
        have hl : ctmLoop T edges n (ctmPass T edges st).1 (ctmPass T edges st).2 =
            ((ctmPass T edges st).1, false) := by
          rw [h2, ctmLoop_flag_false]
        rw [hl]
        exact Prod.ext rfl h2
      · exact Or.inr h2
    · rw [Bool.not_eq_true] at hguard
      simp only [ctmLoop, hguard, Bool.false_eq_true, if_false] at h ⊢
      exact Or.inl h

theorem ctm_fixpoint (T : ℕ) (edges : List (ℕ × ℕ)) (st0 st : CTMState)
    (hpass : ctmPass T edges st0 = (st, false)) :
    ∀ e ∈ edges, ∀ i, i < T → st.tm i e.2 ≤ st.tm i e.1 + 1 := by
  have hflag : (ctmPass T edges st0).2 = false := by rw [hpass]
  obtain ⟨heq, hall⟩ := ctmPassFold_flag_false T edges (st0, false) hflag
  have hst : st = st0 := by
    have := hpass.symm.trans heq
    exact (congrArg Prod.fst this)
  subst hst
  intro e he i hi
  have hce := hall e he
  have hle2 : ∀ x, x < T → st.tm x e.2 ≤ st.tm x e.1 + 1 := by
    simpa [changedAt] using hce
  exact hle2 i hi

theorem ctm_reach_le (T : ℕ) (edges : List (ℕ × ℕ)) (st : CTMState)
    (hdiag : ∀ i, i < T → st.tm i i = 0)
    (hfix : ∀ e ∈ edges, ∀ i, i < T → st.tm i e.2 ≤ st.tm i e.1 + 1) :
    ∀ (p : ℕ) (i j : ℕ), i < T → reachN edges p i j = true → st.tm i j ≤ (p : ℕ∞) := by
  intro p
  induction p with
  | zero =>
    intro i j hi hr
    have hij : i = j := by simpa [reachN] using hr
    subst hij
    rw [hdiag i hi]
    exact zero_le _
  | succ p ih =>
    intro i j hi hr
    simp only [reachN, Bool.or_eq_true] at hr
    rcases hr with hr | hr
    · exact le_trans (ih i j hi hr) (by exact_mod_cast Nat.le_succ p)
    · rw [List.any_eq_true] at hr
      obtain ⟨e, he, hcond⟩ := hr
      rw [Bool.and_eq_true, beq_iff_eq] at hcond
      obtain ⟨he2, hre⟩ := hcond
      calc st.tm i j = st.tm i e.2 := by rw [he2]
        _ ≤ st.tm i e.1 + 1 := hfix e he i hi
        _ ≤ (p : ℕ∞) + 1 := add_le_add_right (ih i e.1 hi hre) 1
        _ = ((p + 1 : ℕ) : ℕ∞) := by push_cast; rfl

theorem anyTop_false_entries (T : ℕ) (st : CTMState) (h : anyTop T st = false) :
    ∀ i j, i < T → j < T → st.tm i j ≠ ⊤ := by
  intro i j hi hj
  have h1 := List.any_eq_false.mp h i (List.mem_range.mpr hi)
  rw [Bool.not_eq_true] at h1
  have h2 := List.any_eq_false.mp h1 j (List.mem_range.mpr hj)
  simpa using h2

theorem construct_stopped (targets : List (Pt K)) (rad2 : K) :
    stoppedB targets.length (construct_time_matrix targets rad2) = true :=
  Nat.find_spec (ctm_stops targets.length (motionEdges targets rad2)
    (fun e he => (motionEdges_lt targets rad2 e he).2) ctmInit)

theorem construct_inv (targets : List (Pt K)) (rad2 : K) :
    CtmInv targets.length (motionEdges targets rad2)
      (construct_time_matrix targets rad2).1 :=
  ctmLoop_inv targets.length (motionEdges targets rad2) (ctmFuel targets rad2)
    ctmInit true (ctmInit_inv targets.length (motionEdges targets rad2))

theorem construct_exit (targets : List (Pt K)) (rad2 : K) :
    (construct_time_matrix targets rad2).2 = false ∨
      anyTop targets.length (construct_time_matrix targets rad2).1 = false := by
  have h := construct_stopped targets rad2
  rw [stoppedB, Bool.not_eq_eq_eq_not, Bool.not_true, Bool.and_eq_false_iff] at h
  exact h

theorem construct_hop_le (targets : List (Pt K)) (rad2 : K) (i j : ℕ)
    (hi : i < targets.length) :
    hopDist (motionEdges targets rad2) i j ≤
      (construct_time_matrix targets rad2).1.tm i j := by
  cases hcase : (construct_time_matrix targets rad2).1.tm i j with
  | top => exact le_top
  | coe k =>
    exact hopDist_le ((construct_inv targets rad2).2.1 i j k hi hcase)

theorem construct_diag (targets : List (Pt K)) (rad2 : K) (i : ℕ)
    (hi : i < targets.length) :
    (construct_time_matrix targets rad2).1.tm i i = 0 :=
  ((construct_inv targets rad2).1 i hi).1

theorem construct_top_iff (targets : List (Pt K)) (rad2 : K) (i j : ℕ)
    (hi : i < targets.length) (hj : j < targets.length) :
    (construct_time_matrix targets rad2).1.tm i j = ⊤ ↔
      hopDist (motionEdges targets rad2) i j = ⊤ := by
  constructor
  · intro htop
    by_contra hne
    obtain ⟨p, hp⟩ := exists_reach_of_ne_top hne
    rcases construct_exit targets rad2 with hflag | hfin
    · rcases ctmLoop_exit_cases targets.length (motionEdges targets rad2)
        (ctmFuel targets rad2) ctmInit true hflag with hch | ⟨st0, hpass⟩
      · exact Bool.noConfusion hch
      · have hfix := ctm_fixpoint targets.length (motionEdges targets rad2) st0
          (construct_time_matrix targets rad2).1 hpass
        have hdiag : ∀ x, x < targets.length →
            (construct_time_matrix targets rad2).1.tm x x = 0 :=
          fun x hx => ((construct_inv targets rad2).1 x hx).1
        have hle := ctm_reach_le targets.length (motionEdges targets rad2)
          (construct_time_matrix targets rad2).1 hdiag hfix p i j hi hp
        rw [htop] at hle
        exact absurd hle (by simp)
    · exact absurd htop (anyTop_false_entries targets.length
        (construct_time_matrix targets rad2).1 hfin i j hi hj)
  · intro htop
    cases hcase : (construct_time_matrix targets rad2).1.tm i j with
    | top => rfl
    | coe k =>
      exact absurd htop
        (hopDist_ne_top ((construct_inv targets rad2).2.1 i j k hi hcase))

theorem ctm_eval (targets : List (Pt K)) (rad2 : K) (F : ℕ)
    (hstop : stoppedB targets.length
      (ctmLoop targets.length (motionEdges targets rad2) F ctmInit true) = true) :
    construct_time_matrix targets rad2 =
      ctmLoop targets.length (motionEdges targets rad2) F ctmInit true := by
  have hle : ctmFuel targets rad2 ≤ F := Nat.find_le hstop
  exact (ctmLoop_stopped_mono targets.length (motionEdges targets rad2)
    (ctmFuel targets rad2) ctmInit true F hle (construct_stopped targets rad2)).symm

/-- Six targets on the 5x5 grid whose radius graph makes the relaxation loop
exit early (matrix fully finite) before entry (3,0) reaches its shortest
path length. -/
def pts6 : List (Pt ℤ) := [(0, 0), (0, 1), (0, 3), (0, 4), (1, 4), (2, 2)]

/-- Two pairs of adjacent targets, far apart: a disconnected motion graph. -/
def disc4 : List (Pt ℤ) := [(0, 0), (1, 0), (10, 0), (11, 0)]

/-- Four collinear targets forming a path graph. -/
def path4 : List (Pt ℤ) := [(0, 0), (1, 0), (2, 0), (3, 0)]

theorem ctm_pts6_eval : construct_time_matrix pts6 5 =
    ctmLoop pts6.length (motionEdges pts6 5) 3 ctmInit true :=
  ctm_eval pts6 5 3 (by decide)

theorem ctm_disc4_eval : construct_time_matrix disc4 1 =
    ctmLoop disc4.length (motionEdges disc4 1) 3 ctmInit true :=
  ctm_eval disc4 1 3 (by decide)

theorem ctm_path4_eval : construct_time_matrix path4 1 =
    ctmLoop path4.length (motionEdges path4 1) 4 ctmInit true :=
  ctm_eval path4 1 4 (by decide)

/-- C1 counterexample: on the six-target motion graph `pts6` with radius
`√5`, the returned time matrix has entry (3,0) equal to 4·edge_time, while
the shortest path 3→2→1→0 has length 3: the loop exits early once the
matrix is fully finite, before the shortest path is found. -/
theorem construct_time_matrix_not_shortest :
    (construct_time_matrix pts6 5).1.tm 3 0 ≠ hopDist (motionEdges pts6 5) 3 0 := by
  intro heq
  have h1 : (construct_time_matrix pts6 5).1.tm 3 0 = 4 := by
    rw [ctm_pts6_eval]
    decide
  have h2 : hopDist (motionEdges pts6 5) 3 0 ≤ ((3 : ℕ) : ℕ∞) :=
    hopDist_le (by decide)
  rw [← heq, h1] at h2
  exact absurd h2 (by decide)

/-- C1 (amended): for the static motion graph and the uniform edge cost, the
time matrix has zero diagonal, every entry is an upper bound on the shortest
path length from i to j (in hops times the unit edge cost), and an entry is
+infinity exactly when j is unreachable from i; but an entry may strictly
exceed the shortest path length when the loop exits early because the matrix
became fully finite (see the counterexample). -/
theorem construct_time_matrix_entries (targets : List (Pt K)) (rad2 : K) (i j : ℕ)
    (hi : i < targets.length) (hj : j < targets.length) :
    (i = j → (construct_time_matrix targets rad2).1.tm i j = 0) ∧
    hopDist (motionEdges targets rad2) i j ≤
      (construct_time_matrix targets rad2).1.tm i j ∧
    ((construct_time_matrix targets rad2).1.tm i j = ⊤ ↔
      hopDist (motionEdges targets rad2) i j = ⊤) :=
  ⟨fun hij => hij ▸ construct_diag targets rad2 i hi,
   construct_hop_le targets rad2 i j hi,
   construct_top_iff targets rad2 i j hi hj⟩

/-- C1 witness: the amended statement instantiated on the `pts6` graph at
entry (3,0). -/
theorem construct_time_matrix_entries_witness :
    (3 < pts6.length ∧ 0 < pts6.length) ∧
    (((3 : ℕ) = 0 → (construct_time_matrix pts6 5).1.tm 3 0 = 0) ∧
      hopDist (motionEdges pts6 5) 3 0 ≤ (construct_time_matrix pts6 5).1.tm 3 0 ∧
      ((construct_time_matrix pts6 5).1.tm 3 0 = ⊤ ↔
        hopDist (motionEdges pts6 5) 3 0 = ⊤)) :=
  ⟨⟨by decide, by decide⟩,
    construct_time_matrix_entries pts6 5 3 0 (by decide) (by decide)⟩

/-- C8 counterexample: on the disconnected motion graph `disc4`, the pair
(1,2) is unreachable (time entry `⊤`), yet the predecessor entry is 0 (the
`np.zeros` initialisation value), which is neither the row self index 1 nor
the column self index 2. -/
theorem construct_time_matrix_prev_cex :
    (construct_time_matrix disc4 1).1.tm 1 2 = ⊤ ∧
    (construct_time_matrix disc4 1).1.prev 1 2 = 0 ∧
    (construct_time_matrix disc4 1).1.prev 1 2 ≠ 1 ∧
    (construct_time_matrix disc4 1).1.prev 1 2 ≠ 2 := by
  rw [ctm_disc4_eval]
  exact ⟨by decide, by decide, by decide, by decide⟩

/-- C8 (amended): in the returned predecessor matrix, every ordered pair
(i,j), i ≠ j, with no path from i to j in the static motion graph holds the
initialisation value 0 (not the self index). -/
theorem construct_time_matrix_prev_unreachable (targets : List (Pt K)) (rad2 : K)
    (i j : ℕ) (hi : i < targets.length) (hne : i ≠ j)
    (htop : (construct_time_matrix targets rad2).1.tm i j = ⊤) :
    (construct_time_matrix targets rad2).1.prev i j = 0 :=
  (construct_inv targets rad2).2.2 i j hi hne htop

/-- C8 witness: the amended statement instantiated on the disconnected
graph `disc4` at the unreachable pair (1,2). -/
theorem construct_time_matrix_prev_unreachable_witness :
    (construct_time_matrix disc4 1).1.prev 1 2 = 0 :=
  construct_time_matrix_prev_unreachable disc4 1 1 2 (by decide) (by decide)
    (by rw [ctm_disc4_eval]; decide)

/-- C9 (confirmed): the relaxation loop always reaches its stop condition
(no change in the last full pass, or a fully finite matrix) after finitely
many passes, further passes leave the state unchanged, and for disconnected
graphs the unreachable entries are still +infinity in the returned matrix. -/
theorem construct_time_matrix_terminates (targets : List (Pt K)) (rad2 : K) :
    ∃ N, stoppedB targets.length
        (ctmLoop targets.length (motionEdges targets rad2) N ctmInit true) = true ∧
      (∀ M, N ≤ M →
        ctmLoop targets.length (motionEdges targets rad2) M ctmInit true =
          ctmLoop targets.length (motionEdges targets rad2) N ctmInit true) ∧
      (∀ i j, i < targets.length → j < targets.length →
        hopDist (motionEdges targets rad2) i j = ⊤ →
        (construct_time_matrix targets rad2).1.tm i j = ⊤) := by
  refine ⟨ctmFuel targets rad2, construct_stopped targets rad2, ?_, ?_⟩
  · intro M hM
    exact ctmLoop_stopped_mono targets.length (motionEdges targets rad2)
      (ctmFuel targets rad2) ctmInit true M hM (construct_stopped targets rad2)
  · intro i j hi hj htop
    exact (construct_top_iff targets rad2 i j hi hj).mpr htop

/-- C9 witness: instantiated on the disconnected four-target graph. -/
theorem construct_time_matrix_terminates_witness :
    ∃ N, stoppedB disc4.length
        (ctmLoop disc4.length (motionEdges disc4 1) N ctmInit true) = true ∧
      (∀ M, N ≤ M →
        ctmLoop disc4.length (motionEdges disc4 1) M ctmInit true =
          ctmLoop disc4.length (motionEdges disc4 1) N ctmInit true) ∧
      (∀ i j, i < disc4.length → j < disc4.length →
        hopDist (motionEdges disc4 1) i j = ⊤ →
        (construct_time_matrix disc4 1).1.tm i j = ⊤) :=
  construct_time_matrix_terminates disc4 1

/-- `closest_targets` (lines 260-265) for one robot, in target-index space:
the first target index attaining the minimum distance. -/
def closestTarget (targets : List (Pt K)) (robot : Pt K) : ℕ :=
  argminIdx (fun j => dist2 robot (targets.getD j (0, 0))) targets.length

/-- The greedy distance row of `controller` (lines 540-542) for one robot.
The mutation `r[:, np.where(self.visited[self.n_robots:] == 1)] = np.Inf`
assigns `Inf` to every visited column and ALSO to column 0 whenever at
least one target is visited: `np.where` on the `(T,1)` boolean array
returns a `(rows, cols)` pair whose second member is all zeros, and the
tuple is treated as one stacked fancy index for the column axis. -/
def greedyRow (targets : List (Pt K)) (visited : List Bool) (robot : Pt K) (j : ℕ) :
    WithTop K :=
  if visited.getD j false = true ∨ (visited.any id = true ∧ j = 0) then ⊤
  else ((dist2 robot (targets.getD j (0, 0)) : K) : WithTop K)

/-- Line 543: `greedy_loc = np.argmin(r, axis=1)` on the poisoned row, for
one robot (target-index space). -/
def greedyLoc (targets : List (Pt K)) (visited : List Bool) (robot : Pt K) : ℕ :=
  argminIdx (greedyRow targets visited robot) targets.length

/-- The greedy fallback as the specification words it: Euclidean nearest
among exactly the targets whose visited flag is false, infinite distance to
visited targets only. -/
def specGreedyRow (targets : List (Pt K)) (visited : List Bool) (robot : Pt K)
    (j : ℕ) : WithTop K :=
  if visited.getD j false = true then ⊤
  else ((dist2 robot (targets.getD j (0, 0)) : K) : WithTop K)

/-- The nearest-unvisited-target selection as the specification words it. -/
def specGreedyLoc (targets : List (Pt K)) (visited : List Bool) (robot : Pt K) : ℕ :=
  argminIdx (specGreedyRow targets visited robot) targets.length

/-- Lines 558-564 for one robot in cached-route mode: the desired next
target.  With exactly one waypoint left, fall back to the greedy choice;
otherwise pop the head if the robot already sits on it and take the new
head.  `none` models the `IndexError` the code raises on an empty plan
(`self.cached_solution[i][0]` of an empty list). -/
def controllerDesired (targets : List (Pt K)) (visited : List Bool) (robot : Pt K)
    (plan : List ℕ) : Option ℕ :=
  if plan.length = 1 then some (greedyLoc targets visited robot)
  else
    let plan2 := if plan.head? = some (closestTarget targets robot) then plan.tail else plan
    plan2.head?

/-- Line 567 for one robot (target-index space): the desired target is
projected through the predecessor matrix as
`graph_previous[next_loc, curr_loc]` — row: desired, column: current. -/
def controllerProjectedHop (targets : List (Pt K)) (rad2 : K) (visited : List Bool)
    (robot : Pt K) (plan : List ℕ) : Option ℕ :=
  (controllerDesired targets visited robot plan).map
    (fun d => (construct_time_matrix targets rad2).1.prev d (closestTarget targets robot))

/-- The projection formula as the specification words it:
`next_hop = predecessor[current_location][desired_target]` — row: current,
column: desired. -/
def specNextHop (prevM : ℕ → ℕ → ℕ) (currLoc desiredLoc : ℕ) : ℕ :=
  prevM currLoc desiredLoc

/-- C2 counterexample: on the four-target path graph, with the robot at
target 0 and desired target 3, the code projects through `prev[3][0] = 1`
(the correct next hop out of 0), while the formula of the claim
`predecessor[current][desired] = prev[0][3]` gives 2, the hop adjacent to
the far end; the two entries differ. -/
theorem controller_projection_cex :
    controllerProjectedHop path4 1 [false, false, false, false] ((0 : ℤ), 0) [3, 3] =
      some 1 ∧
    specNextHop (construct_time_matrix path4 1).1.prev
      (closestTarget path4 ((0 : ℤ), 0)) 3 = 2 := by
  constructor
  · rw [controllerProjectedHop, ctm_path4_eval]
    decide
  · rw [specNextHop, ctm_path4_eval]
    decide

/-- C2 (amended): whenever the controller has chosen desired target `d` and
the current location (nearest target) of the robot is `c`, the projected hop
is `predecessor[d][c]` — the entry whose ROW is the desired target and whose
COLUMN is the current location (the transpose of what the claim states). -/
theorem controller_projection (targets : List (Pt K)) (rad2 : K)
    (visited : List Bool) (robot : Pt K) (plan : List ℕ) (d : ℕ)
    (hd : controllerDesired targets visited robot plan = some d) :
    controllerProjectedHop targets rad2 visited robot plan =
      some ((construct_time_matrix targets rad2).1.prev d
        (closestTarget targets robot)) := by
  rw [controllerProjectedHop, hd]
  rfl

/-- C2 witness: the amended statement on the path graph, desired target 3,
robot at target 0. -/
theorem controller_projection_witness :
    controllerProjectedHop path4 1 [false, false, false, false] ((0 : ℤ), 0) [3, 3] =
      some ((construct_time_matrix path4 1).1.prev 3
        (closestTarget path4 ((0 : ℤ), 0))) :=
  controller_projection path4 1 [false, false, false, false] ((0 : ℤ), 0) [3, 3] 3
    (by decide)

/-- Three collinear targets; target 1 visited, targets 0 and 2 unvisited. -/
def targets3 : List (Pt ℤ) := [(0, 0), (5, 0), (10, 0)]

/-- C3 counterexample: with targets at 0, 5, 10, the middle one visited and
the robot standing on target 0, the exhausted-plan fallback picks target 2
(distance 10) instead of the Euclidean-nearest unvisited target 0
(distance 0): the fancy-indexing bug also poisons column 0. -/
theorem controller_greedy_cex :
    controllerDesired targets3 [false, true, false] ((0 : ℤ), 0) [9] = some 2 ∧
    specGreedyLoc targets3 [false, true, false] ((0 : ℤ), 0) = 0 := by
  constructor
  · decide
  · decide

theorem getD_true_any (l : List Bool) (j : ℕ) (h : l.getD j false = true) :
    l.any id = true := by
  rcases Nat.lt_or_ge j l.length with hj | hj
  · rw [List.getD_eq_getElem l false hj] at h
    exact List.any_eq_true.mpr ⟨l[j], List.getElem_mem hj, by simp [h]⟩
  · rw [List.getD_eq_default l false hj] at h
    exact absurd h (by simp)

/-- C3 (amended): whenever the cached route plan of a robot has exactly one
waypoint remaining, the controller falls back to the greedy policy that
treats as infinitely distant every visited target and, whenever at least
one target is visited, also target 0; it returns a choice rather than
raising an error, and that choice is never an already-visited target while
at least one unvisited target remains (an empty plan, by contrast, raises
`IndexError` at `self.cached_solution[i][0]`, modelled as `none`). -/
theorem controller_greedy_fallback (targets : List (Pt K)) (visited : List Bool)
    (robot : Pt K) (plan : List ℕ) (hplan : plan.length = 1)
    (hunv : ∃ j, j < targets.length ∧ visited.getD j false = false) :
    controllerDesired targets visited robot plan =
      some (greedyLoc targets visited robot) ∧
    visited.getD (greedyLoc targets visited robot) false = false := by
  obtain ⟨j0, hj0T, hj0⟩ := hunv
  have hT : 0 < targets.length := Nat.lt_of_le_of_lt (Nat.zero_le j0) hj0T
  refine ⟨by rw [controllerDesired, if_pos hplan], ?_⟩
  cases hany : visited.any id with
  | false =>
    cases hmem : visited.getD (greedyLoc targets visited robot) false with
    | false => rfl
    | true => exact absurd (getD_true_any visited _ hmem) (by simp [hany])
  | true =>
    by_cases hB1 : ∃ j, j < targets.length ∧ j ≠ 0 ∧ visited.getD j false = false
    · obtain ⟨j1, hj1T, hj1ne, hj1unv⟩ := hB1
      have hrowj1 : greedyRow targets visited robot j1 =
          ((dist2 robot (targets.getD j1 (0, 0)) : K) : WithTop K) := by
        rw [greedyRow, if_neg]
        rintro (h | ⟨_, h0⟩)
        · rw [hj1unv] at h
          exact Bool.noConfusion h
        · exact hj1ne h0
      have hg := argminOver_min (greedyRow targets visited robot)
        (List.range targets.length) (by rw [Ne, List.range_eq_nil]; omega) j1
        (List.mem_range.mpr hj1T)
      rw [hrowj1] at hg
      have hne : greedyRow targets visited robot
          (argminOver (greedyRow targets visited robot) (List.range targets.length)) ≠ ⊤ :=
        ne_top_of_le_ne_top (WithTop.coe_ne_top) hg
      rw [greedyLoc, argminIdx]
      cases hmem : visited.getD
          (argminOver (greedyRow targets visited robot) (List.range targets.length))
          false with
      | false => rfl
      | true =>
        exfalso
        apply hne
        rw [greedyRow, if_pos]
        exact Or.inl hmem
    · push_neg at hB1
      have hvis : ∀ j, j < targets.length → j ≠ 0 → visited.getD j false = true := by
        intro j hj hjne
        have := hB1 j hj hjne
        cases hx : visited.getD j false with
        | false => exact absurd hx this
        | true => rfl
      have hj00 : j0 = 0 := by
        by_contra hne0
        rw [hvis j0 hj0T hne0] at hj0
        exact Bool.noConfusion hj0
      have hrowtop : ∀ x, x ∈ List.range targets.length →
          greedyRow targets visited robot x = ⊤ := by
        intro x hx
        by_cases hx0 : x = 0
        · rw [greedyRow, if_pos (Or.inr ⟨hany, hx0⟩)]
        · rw [greedyRow, if_pos (Or.inl (hvis x (List.mem_range.mp hx) hx0))]
      obtain ⟨T0, hT0⟩ : ∃ T0, targets.length = T0 + 1 := ⟨targets.length - 1, by omega⟩
      have hrange : List.range targets.length =
          0 :: (List.range T0).map Nat.succ := by
        rw [hT0]
        simpa using List.range_succ_eq_map T0
      have hg0 : argminOver (greedyRow targets visited robot)
          (List.range targets.length) = 0 := by
        rw [hrange]
        apply argminOver_head
        intro x hx
        have hxmem : x ∈ List.range targets.length := by
          rw [hrange]
          exact List.mem_cons_of_mem 0 hx
        have h0mem : 0 ∈ List.range targets.length := List.mem_range.mpr hT
        rw [hrowtop x hxmem, hrowtop 0 h0mem]
        exact lt_irrefl ⊤
      rw [greedyLoc, argminIdx, hg0, ← hj00]
      exact hj0

/-- C3 witness: the amended statement instantiated on `targets3` with the
middle target visited, robot at target 0, single-waypoint plan. -/
theorem controller_greedy_fallback_witness :
    ([(9 : ℕ)].length = 1 ∧ 0 < targets3.length) ∧
    (controllerDesired targets3 [false, true, false] ((0 : ℤ), 0) [9] =
        some (greedyLoc targets3 [false, true, false] ((0 : ℤ), 0)) ∧
      [false, true, false].getD
        (greedyLoc targets3 [false, true, false] ((0 : ℤ), 0)) false = false) :=
  ⟨⟨by decide, by decide⟩,
    controller_greedy_fallback targets3 [false, true, false] ((0 : ℤ), 0) [9]
      (by decide) ⟨0, by decide, by decide⟩⟩

/-- C7: the static motion graph contains no self-loop edge.  Evaluating the
builder at two distinct targets within radius, with `self_loops=True`,
yields only the two cross edges: the diagonal distances are exactly 0, so
`np.nonzero` discards them and the weight-0 self-loops the flag (and its
docstring) promise never appear. -/
theorem motionEdges_self_loops_dropped :
    motionEdges [((0 : ℤ), 0), (5, 0)] 36 = [(0, 1), (1, 0)] := by decide

/-- Number of edges/actions per robot, fixed (line 40). -/
def N_ACTIONS : ℕ := 4

/-- Padding factor for the fixed-capacity edge arrays (line 37). -/
def MAX_EDGES : ℕ := 5

/-- The mutable environment state read and written by `step` and
`_get_obs_reward`: robot rows of `self.x` (positions; in velocity-control
mode the velocity rows are never consulted), target rows (immutable),
`self.visited` over all agents (robot rows first), the step counter, the
receiver column of the cached movement edges (`self.mov_edges`, global
agent indices), and the stored fixed-capacity arrays `self.senders`,
`self.receivers` and `self.edges`. -/
structure EnvState (K : Type) where
  robots : List (Pt K)
  targets : List (Pt K)
  visited : List Bool
  stepCounter : ℕ
  movReceivers : List ℕ
  sendersArr : List ℤ
  receiversArr : List ℤ
  edgesW : List K

/-- The configuration constants consulted by `step`/`_get_obs_reward`
(radii squared; `ddt = dt / n_steps`). -/
structure EnvConfig (K : Type) where
  episodeLength : ℕ
  motionRadius2 : K
  commRadius2 : K
  sensorRadius2 : K
  ddt : K
  aMax : K
  actionGain : K
  nSteps : ℕ

/-- The observation mapping (lines 229-230): node features `[type,
unvisited]`, edge weights, padded sender/receiver columns, step counter. -/
structure Obs (K : Type) where
  nodes : List (K × K)
  edges : List K
  senders : List ℤ
  receivers : List ℤ
  step : ℕ

/-- `np.clip(x, lo, hi)`. -/
def clip (lo hi x : K) : K := min hi (max lo x)

/-- `self.max_edges = self.n_agents * MAX_EDGES` (line 407). -/
def maxEdgesOf (s : EnvState K) : ℕ :=
  (s.robots.length + s.targets.length) * MAX_EDGES

/-- `self.n_motion_edges` (line 434). -/
def nmOf (cfg : EnvConfig K) (s : EnvState K) : ℕ :=
  (motionEdges s.targets cfg.motionRadius2).length

/-- Action edges (line 189): k-nearest from robots to targets with the
default `allow_nearest=False`, in robot/target index spaces. -/
def actionEdges (s : EnvState K) : List (ℕ × ℕ) :=
  getKEdges N_ACTIONS s.robots s.targets

/-- Planning edges (line 196): radius graph robots → targets. -/
def planEdges (cfg : EnvConfig K) (s : EnvState K) : List (ℕ × ℕ) :=
  getGraphEdges cfg.motionRadius2 s.robots s.targets false false

/-- Communication edges (line 201): radius graph among robots. -/
def commEdges (cfg : EnvConfig K) (s : EnvState K) : List (ℕ × ℕ) :=
  getGraphEdges cfg.commRadius2 s.robots s.robots true false

/-- Sensor edges (line 204): radius graph robots → targets at the sensing
radius. -/
def sensorEdges (cfg : EnvConfig K) (s : EnvState K) : List (ℕ × ℕ) :=
  getGraphEdges cfg.sensorRadius2 s.robots s.targets false false

/-- Line 213: `senders = concat(plan_edges[0], action_edges[1],
comm_edges[0])` (action receivers already shifted by `n_robots`). -/
def dynSenders (cfg : EnvConfig K) (s : EnvState K) : List ℕ :=
  (planEdges cfg s).map (fun e => e.1) ++
    (actionEdges s).map (fun e => e.2 + s.robots.length) ++
    (commEdges cfg s).map (fun e => e.1)

/-- Line 214: `receivers = concat(plan_edges[1], action_edges[0],
comm_edges[1])` (plan receivers shifted by `n_robots`). -/
def dynReceivers (cfg : EnvConfig K) (s : EnvState K) : List ℕ :=
  (planEdges cfg s).map (fun e => e.2 + s.robots.length) ++
    (actionEdges s).map (fun e => e.1) ++
    (commEdges cfg s).map (fun e => e.2)

/-- Line 215: the corresponding (squared) edge weights. -/
def dynWeights (cfg : EnvConfig K) (s : EnvState K) : List K :=
  (planEdges cfg s).map
      (fun e => rEntry cfg.motionRadius2 s.robots s.targets false false e.1 e.2) ++
    (actionEdges s).map (fun e => kRow s.robots s.targets e.1 e.2) ++
    (commEdges cfg s).map
      (fun e => rEntry cfg.commRadius2 s.robots s.robots true false e.1 e.2)

/-- Line 207: `self.visited[sensor_edges[1] + self.n_robots] = 1`. -/
def updateVisited (visited : List Bool) : List ℕ → List Bool
  | [] => visited
  | i :: rest => updateVisited (visited.set i true) rest

/-- Number of visited targets, `np.sum(self.visited[self.n_robots:])`. -/
def visitedSum (R T : ℕ) (visited : List Bool) : ℕ :=
  ((List.range T).filter (fun j => visited.getD (j + R) false)).length

/-- `_get_obs_reward` (lines 176-237): recompute the dynamic edge sets,
mark newly sensed targets visited, merge everything into the padded
fixed-capacity arrays (`-1` sentinel), build the observation, advance the
step counter, and report reward and termination.  The two `assert`
statements are modelled as errors. -/
def getObsReward (cfg : EnvConfig K) (s : EnvState K) :
    Except String (Obs K × ℤ × Bool × EnvState K) :=
  let R := s.robots.length
  let T := s.targets.length
  let nm := nmOf cfg s
  let maxE := maxEdgesOf s
  if (actionEdges s).length ≠ N_ACTIONS * R then
    Except.error "Number of action edges is not num robots x n_actions"
  else
    let senders := dynSenders cfg s
    if maxE < senders.length + nm then Except.error "Increase MAX_EDGES"
    else
      let receivers := dynReceivers cfg s
      let visited2 := updateVisited s.visited ((sensorEdges cfg s).map (fun e => e.2 + R))
      let sendersArr := s.sendersArr.take nm ++ senders.map Int.ofNat ++
        List.replicate (maxE - nm - senders.length) (-1)
      let receiversArr := s.receiversArr.take nm ++ receivers.map Int.ofNat ++
        List.replicate (maxE - nm - receivers.length) (-1)
      let edgesW2 := s.edgesW.take nm ++ dynWeights cfg s ++
        s.edgesW.drop (nm + (dynWeights cfg s).length)
      let nodes := (List.range (R + T)).map (fun a =>
        ((if a < R then (1 : K) else 0),
         (if visited2.getD a false = true then (0 : K) else 1)))
      let newSum := visitedSum R T visited2
      let oldSum := visitedSum R T s.visited
      Except.ok
        ({ nodes := nodes, edges := edgesW2, senders := sendersArr,
           receivers := receiversArr, step := s.stepCounter },
         (newSum : ℤ) - (oldSum : ℤ),
         decide (s.stepCounter + 1 = cfg.episodeLength ∨ newSum = T),
         { s with
            visited := visited2
            stepCounter := s.stepCounter + 1
            movReceivers := (actionEdges s).map (fun e => e.2 + R)
            sendersArr := sendersArr
            receiversArr := receiversArr
            edgesW := edgesW2 })

/-- One integration sub-step of `step` (lines 154-161, velocity-control
mode): per robot, displacement towards the commanded agent, clipped and
scaled, added to the position. -/
def subStep (cfg : EnvConfig K) (targets : List (Pt K)) (chosen : ℕ → ℕ)
    (robots : List (Pt K)) : List (Pt K) :=
  robots.mapIdx (fun i p =>
    let q := (robots ++ targets).getD (chosen i) (0, 0)
    let u1 := cfg.actionGain * clip (-cfg.aMax) cfg.aMax (-(p.1 - q.1))
    let u2 := cfg.actionGain * clip (-cfg.aMax) cfg.aMax (-(p.2 - q.2))
    (p.1 + u1 * cfg.ddt, p.2 + u2 * cfg.ddt))

/-- Lines 150-152: the action index of robot `i` selects the receiver of
its `i`-th block of cached movement edges. -/
def chosenIdx (s : EnvState K) (u : List ℕ) (i : ℕ) : ℕ :=
  s.movReceivers.getD (i * N_ACTIONS + u.getD i 0) 0

/-- The `for _ in range(self.n_steps)` integration loop of `step`. -/
def dynamics (cfg : EnvConfig K) (s : EnvState K) (u : List ℕ) : List (Pt K) :=
  (List.range cfg.nSteps).foldl
    (fun r _ => subStep cfg s.targets (chosenIdx s u) r) s.robots

/-- `step` (lines 142-174): integrate the dynamics, then assemble the
observation, reward, done flag and successor state.  No random source is
consulted anywhere on this path. -/
def step (cfg : EnvConfig K) (s : EnvState K) (u : List ℕ) :
    Except String (Obs K × ℤ × Bool × EnvState K) :=
  getObsReward cfg { s with robots := dynamics cfg s u }

/-- The full object state: the simulation state together with the state of
the seeded random source `self.np_random` (abstracted as a seed value),
which only `reset` and `seed` consume. -/
def stepFull (cfg : EnvConfig K) (fs : EnvState K × ℕ) (u : List ℕ) :
    Except String (Obs K × ℤ × Bool × (EnvState K × ℕ)) :=
  (step cfg fs.1 u).map (fun x => (x.1, x.2.1, x.2.2.1, (x.2.2.2, fs.2)))

/-- Iterated `step` within one episode, threading the successor state. -/
def stepMany (cfg : EnvConfig K) : List (List ℕ) → EnvState K →
    Except String (EnvState K)
  | [], s => Except.ok s
  | u :: us, s =>
      match step cfg s u with
      | Except.error e => Except.error e
      | Except.ok x => stepMany cfg us x.2.2.2

theorem getD_replicate_self (n : ℕ) (a : ℤ) (i : ℕ) :
    (List.replicate n a).getD i a = a := by
  rcases Nat.lt_or_ge i n with h | h
  · rw [List.getD_eq_getElem _ _ (by simpa using h)]
    exact List.getElem_replicate _ _
  · exact List.getD_eq_default _ _ (by simpa using h)

theorem dynSenders_length_eq (cfg : EnvConfig K) (s : EnvState K) :
    (dynSenders cfg s).length = (dynReceivers cfg s).length := by
  simp [dynSenders, dynReceivers]

/-- C5 (confirmed): every observation the assembler produces has sender and
receiver arrays of the same fixed capacity length, the live (non `-1`)
entries never exceed the capacity, every slot beyond the merged edges holds
the sentinel `-1`, and when the merged edge count would exceed the capacity
the step aborts with the error "Increase MAX_EDGES" instead of truncating
(`reset` produces its observation through the same assembler). -/
theorem obs_capacity (cfg : EnvConfig K) (s : EnvState K)
    (hs : s.sendersArr.length = maxEdgesOf s)
    (hr : s.receiversArr.length = maxEdgesOf s) :
    (∀ obs rew dn s2, getObsReward cfg s = Except.ok (obs, rew, dn, s2) →
        obs.senders.length = obs.receivers.length ∧
        obs.senders.length = maxEdgesOf s ∧
        obs.senders.countP (fun x => decide (x ≠ -1)) ≤ maxEdgesOf s ∧
        obs.receivers.countP (fun x => decide (x ≠ -1)) ≤ maxEdgesOf s ∧
        (∀ idx, nmOf cfg s + (dynSenders cfg s).length ≤ idx →
          obs.senders.getD idx (-1) = -1 ∧ obs.receivers.getD idx (-1) = -1)) ∧
    ((actionEdges s).length = N_ACTIONS * s.robots.length →
      maxEdgesOf s < (dynSenders cfg s).length + nmOf cfg s →
      getObsReward cfg s = Except.error "Increase MAX_EDGES") := by
  constructor
  · intro obs rew dn s2 hok
    simp only [getObsReward] at hok
    split_ifs at hok with h1 h2
    rw [Except.ok.injEq, Prod.mk.injEq, Prod.mk.injEq, Prod.mk.injEq] at hok
    obtain ⟨hobs, _, _, _⟩ := hok
    push_neg at h2
    have hnm : nmOf cfg s ≤ maxEdgesOf s := by omega
    have hLnm : nmOf cfg s + (dynSenders cfg s).length ≤ maxEdgesOf s := by omega
    have hsend : obs.senders = s.sendersArr.take (nmOf cfg s) ++
        (dynSenders cfg s).map Int.ofNat ++
        List.replicate (maxEdgesOf s - nmOf cfg s - (dynSenders cfg s).length) (-1) := by
      rw [← hobs]
    have hrecv : obs.receivers = s.receiversArr.take (nmOf cfg s) ++
        (dynReceivers cfg s).map Int.ofNat ++
        List.replicate (maxEdgesOf s - nmOf cfg s - (dynReceivers cfg s).length) (-1) := by
      rw [← hobs]
    have hslen : obs.senders.length = maxEdgesOf s := by
      rw [hsend]
      simp only [List.length_append, List.length_take, List.length_map,
        List.length_replicate, hs]
      omega
    have hrlen : obs.receivers.length = maxEdgesOf s := by
      rw [hrecv]
      simp only [List.length_append, List.length_take, List.length_map,
        List.length_replicate, hr]
      rw [← dynSenders_length_eq]
      omega
    refine ⟨hslen.trans hrlen.symm, hslen, ?_, ?_, ?_⟩
    · exact le_trans (List.countP_le_length _) (le_of_eq hslen)
    · exact le_trans (List.countP_le_length _) (le_of_eq hrlen)
    · intro idx hidx
      have hABs : (s.sendersArr.take (nmOf cfg s) ++
          (dynSenders cfg s).map Int.ofNat).length ≤ idx := by
        simp only [List.length_append, List.length_take, List.length_map, hs]
        omega
      have hABr : (s.receiversArr.take (nmOf cfg s) ++
          (dynReceivers cfg s).map Int.ofNat).length ≤ idx := by
        simp only [List.length_append, List.length_take, List.length_map, hr,
          ← dynSenders_length_eq]
        omega
      constructor
      · rw [hsend, List.getD_append_right _ _ _ _ hABs]
        exact getD_replicate_self _ _ _
      · rw [hrecv, List.getD_append_right _ _ _ _ hABr]
        exact getD_replicate_self _ _ _
  · intro h1 h2
    simp only [getObsReward]
    rw [if_neg (by simpa using h1), if_pos h2]

/-- Concrete single-robot, five-target environment used by the witnesses. -/
def cfgW : EnvConfig ℤ where
  episodeLength := 50
  motionRadius2 := 5
  commRadius2 := 5
  sensorRadius2 := 1
  ddt := 1
  aMax := 3
  actionGain := 1
  nSteps := 5

/-- Concrete environment state for the C5 witness. -/
def envW : EnvState ℤ where
  robots := [(0, 0)]
  targets := [(0, 0), (2, 0), (4, 0), (0, 2), (2, 2)]
  visited := List.replicate 6 false
  stepCounter := 0
  movReceivers := List.replicate 4 1
  sendersArr := List.replicate 30 (-1)
  receiversArr := List.replicate 30 (-1)
  edgesW := List.replicate 30 0

/-- C5 witness: the capacity statement instantiated on the concrete
single-robot environment. -/
theorem obs_capacity_witness :
    (∀ obs rew dn s2, getObsReward cfgW envW = Except.ok (obs, rew, dn, s2) →
        obs.senders.length = obs.receivers.length ∧
        obs.senders.length = maxEdgesOf envW ∧
        obs.senders.countP (fun x => decide (x ≠ -1)) ≤ maxEdgesOf envW ∧
        obs.receivers.countP (fun x => decide (x ≠ -1)) ≤ maxEdgesOf envW ∧
        (∀ idx, nmOf cfgW envW + (dynSenders cfgW envW).length ≤ idx →
          obs.senders.getD idx (-1) = -1 ∧ obs.receivers.getD idx (-1) = -1)) ∧
    ((actionEdges envW).length = N_ACTIONS * envW.robots.length →
      maxEdgesOf envW < (dynSenders cfgW envW).length + nmOf cfgW envW →
      getObsReward cfgW envW = Except.error "Increase MAX_EDGES") :=
  obs_capacity cfgW envW (by decide) (by decide)

theorem set_getD_true (v : List Bool) (a i : ℕ) (h : v.getD i false = true) :
    (v.set a true).getD i false = true := by
  have hlt : i < v.length := by
    by_contra hge
    rw [List.getD_eq_default _ _ (by omega)] at h
    exact Bool.noConfusion h
  by_cases hia : i = a
  · subst hia
    rw [List.getD_eq_getElem _ _ (by simpa using hlt)]
    simp [List.getElem_set_self]
  · rw [List.getD_eq_getElem _ _ (by simpa using hlt)] at h ⊢
    rw [List.getElem_set_ne (by omega)]
    exact h

theorem updateVisited_getD_mono :
    ∀ (idxs : List ℕ) (v : List Bool) (i : ℕ),
      v.getD i false = true → (updateVisited v idxs).getD i false = true := by
  intro idxs
  induction idxs with
  | nil => intro v i h; exact h
  | cons a rest ih =>
    intro v i h
    exact ih (v.set a true) i (set_getD_true v a i h)

theorem step_visited_mono_single (cfg : EnvConfig K) (s : EnvState K) (u : List ℕ)
    (x : Obs K × ℤ × Bool × EnvState K) (hok : step cfg s u = Except.ok x)
    (i : ℕ) (hv : s.visited.getD i false = true) :
    x.2.2.2.visited.getD i false = true := by
  simp only [step, getObsReward] at hok
  split_ifs at hok with h1 h2
  rw [Except.ok.injEq] at hok
  rw [← hok]
  exact updateVisited_getD_mono _ _ _ hv

/-- C6 (confirmed): across any sequence of `step` calls in an episode the
visited flags are non-decreasing — `step` only ever sets flags to true (the
monotone OR with newly sensed targets, line 207); flags are only cleared by
`reset`. -/
theorem step_visited_monotone (cfg : EnvConfig K) (us : List (List ℕ)) :
    ∀ (s s2 : EnvState K) (i : ℕ), stepMany cfg us s = Except.ok s2 →
      s.visited.getD i false = true → s2.visited.getD i false = true := by
  induction us with
  | nil =>
    intro s s2 i h hv
    rw [stepMany, Except.ok.injEq] at h
    rw [← h]
    exact hv
  | cons u us ih =>
    intro s s2 i h hv
    rw [stepMany] at h
    cases hstep : step cfg s u with
    | error e =>
      rw [hstep] at h
      exact Except.noConfusion h
    | ok x =>
      rw [hstep] at h
      exact ih x.2.2.2 s2 i h (step_visited_mono_single cfg s u x hstep i hv)

/-- Concrete environment state for the C6 witness: target agent 3 starts
visited. -/
def envC6 : EnvState ℤ where
  robots := [(0, 0)]
  targets := [(0, 0), (2, 0), (4, 0), (0, 2), (2, 2)]
  visited := [false, false, false, true, false, false]
  stepCounter := 0
  movReceivers := [1, 2, 3, 4]
  sendersArr := List.replicate 30 (-1)
  receiversArr := List.replicate 30 (-1)
  edgesW := List.replicate 30 0

/-- The state after one concrete step from `envC6`. -/
def envC6After : EnvState ℤ :=
  match stepMany cfgW [[0]] envC6 with
  | Except.ok s2 => s2
  | Except.error _ => envC6

theorem envC6_run : stepMany cfgW [[0]] envC6 = Except.ok envC6After := by
  rfl

/-- C6 witness: the monotonicity statement instantiated on a concrete
one-step episode in which target agent 3 starts visited. -/
theorem step_visited_monotone_witness :
    envC6After.visited.getD 3 false = true :=
  step_visited_monotone cfgW [[0]] envC6 envC6After 3 envC6_run (by decide)

/-- C10 (confirmed): `step` consults no random source — running it from the
same simulation state with two different states of `self.np_random` yields
identical observation, reward, done flag and successor simulation state,
each run keeping its own random-source state untouched; randomness enters
only through `reset` and `seed`. -/
theorem step_deterministic (cfg : EnvConfig K) (core : EnvState K) (r1 r2 : ℕ)
    (u : List ℕ) :
    stepFull cfg (core, r1) u =
      Except.map (fun x => (x.1, x.2.1, x.2.2.1, (x.2.2.2.1, r1)))
        (stepFull cfg (core, r2) u) := by
  simp only [stepFull]
  cases hstep : step cfg core u with
  | error e => rfl
  | ok x => rfl

end MappingRad







